import Mathlib

/-!
Verification development for the HTML+CSS → Webflow clipboard-document
conversion engine (`src/engine/converter.ts`).

The engine is embedded shallowly:
* the markup tree (the result of the external `DOMParser` facility, which the
  code treats as a pure service) is the inductive type `HNode`;
* the regex-based CSS rule scanner (`/([^{}\n@]+)\s*\{([^{}]+)\}/g` applied to
  comment- and media-stripped text, `converter.ts:169-177`) and the regex-based
  advanced-CSS extractor (`extractAdvancedCss`, `converter.ts:218-294`) are
  external oracle parameters (`RuleScanner`, `extractAdv`): concrete theorems
  instantiate them with the rule lists / texts the source regexes produce on
  the concrete inputs shown;
* `el.matches(selector)` (the browser structural selector matcher, wrapped in
  `try/catch` at `converter.ts:756-786`) is an oracle parameter
  `mtch : HNode → String → Bool`; a thrown (swallowed) selector error is
  modelled as `false`;
* `uuidv4()` is modelled by a fresh-counter id generator `mkId` (any injective
  generator of process-unique ids is a faithful model of uuid uniqueness);
* all other functions are translated directly from `converter.ts`; per-node
  `data` payload fields that no claim mentions (attribute lists, link/image
  metadata, constant style fields) are omitted, keeping `_id`, `type`, `tag`,
  the original tag (`data.tag`, here `dataTag`), `classes`, `children`,
  `text`/`v`, and the embed script flag.
-/

namespace CodeToWebflow

/-! ## String helpers with JavaScript semantics

All string manipulation is implemented by structural recursion over the
character list of the string (core `String.split`/`splitOn`/`startsWith` use
well-founded recursion, which the kernel does not unfold, so concrete
instances could not be settled by `decide` with them). -/

/-- ASCII/Unicode whitespace test used to model JS `\s` and `String.trim`. -/
def wsChar (c : Char) : Bool := c.isWhitespace

/-- JS `String.prototype.trim` on a character list: drop whitespace at both ends. -/
def jsTrimList (l : List Char) : List Char :=
  ((l.dropWhile wsChar).reverse.dropWhile wsChar).reverse

/-- JS `String.prototype.trim`. -/
def jsTrim (s : String) : String := String.mk (jsTrimList s.toList)

/-- Character-list prefix test. -/
def isPrefixList : List Char → List Char → Bool
  | [], _ => true
  | _ :: _, [] => false
  | p :: ps, c :: cs => p == c && isPrefixList ps cs

/-- `strStarts s pre`: JS `String.prototype.startsWith pre`. -/
def strStarts (s pre : String) : Bool := isPrefixList pre.toList s.toList

/-- Substring occurrence of `pat` in the character list. -/
def containsSubList (pat : List Char) : List Char → Bool
  | [] => isPrefixList pat []
  | c :: cs => isPrefixList pat (c :: cs) || containsSubList pat cs

/-- JS `String.prototype.includes pat`. -/
def strContains (s pat : String) : Bool := containsSubList pat.toList s.toList

/-- Split a character list at every character satisfying `p` (the separator
characters are dropped); mirrors JS `split` with a single-character
separator and Lean `String.split`. -/
def splitCharList (p : Char → Bool) : List Char → List (List Char)
  | [] => [[]]
  | c :: cs =>
    match splitCharList p cs with
    | [] => [[]]
    | h :: t => if p c then [] :: h :: t else (c :: h) :: t

/-- String split on a character predicate. -/
def strSplitChar (p : Char → Bool) (s : String) : List String :=
  (splitCharList p s.toList).map String.mk

/-- JS `value.trim().split(/\s+/)`: on an all-whitespace string JS yields
`[""]`; otherwise the maximal non-whitespace runs. -/
def splitWsJS (s : String) : List String :=
  let t := jsTrim s
  if t = "" then [""] else (strSplitChar wsChar t).filter (fun p => p != "")

/-- Split a character list at the first character satisfying `p`; `none` when
no character satisfies it. -/
def splitFirstCharList (p : Char → Bool) : List Char → Option (List Char × List Char)
  | [] => none
  | c :: cs =>
    if p c then some ([], cs)
    else
      match splitFirstCharList p cs with
      | none => none
      | some (a, b) => some (c :: a, b)

/-- First-occurrence split at `:` — models JS `indexOf(':')` plus the two
`substring` calls in `converter.ts:190-194`; `none` when there is no colon. -/
def splitFirstColon (s : String) : Option (String × String) :=
  match splitFirstCharList (fun c => c == ':') s.toList with
  | none => none
  | some (a, b) => some (String.mk a, String.mk b)

/-- ASCII lower-casing (JS `toLowerCase`; tags and selectors are ASCII). -/
def strLower (s : String) : String := String.mk (s.toList.map Char.toLower)

/-- JS `Array.prototype.join sep` / `String.intercalate`. -/
def strJoin (sep : String) : List String → String
  | [] => ""
  | x :: xs => xs.foldl (fun acc y => acc ++ sep ++ y) x

/-- `selector.substring(1)` for the leading-dot drop. -/
def strDropOne (s : String) : String := String.mk s.toList.tail

/-! ## Stylesheet normalizer (`converter.ts:101-214`) -/

/-- The value test of `wrapCssVariables` (`converter.ts:105-109`): JS
`includes` of any of the five opaque-function markers. -/
def hasRawFnMarker (trimmed : String) : Bool :=
  strContains trimmed ("var(--") || strContains trimmed ("calc(") ||
  strContains trimmed ("clamp(") || strContains trimmed ("min(") ||
  strContains trimmed ("max(")

/-- `wrapCssVariables` (`converter.ts:102-114`). -/
def wrapCssVariables (value : String) : String :=
  let trimmed := jsTrim value
  if hasRawFnMarker trimmed then "@raw<|" ++ trimmed ++ "|>" else trimmed

/-- JS `/^[a-z]+$/i.test s`: nonempty and all ASCII letters. -/
def isAlphaWordCI (s : String) : Bool := s != "" && s.toList.all (fun c => c.isAlpha)

/-- `expandShorthand` (`converter.ts:117-162`), translated case by case;
value-counts the source leaves unhandled produce `""` exactly as it does. -/
def expandShorthand (prop value : String) : String :=
  let values := splitWsJS value
  if prop = "margin" || prop = "padding" then
    match values with
    | [v0] => prop ++ "-top: " ++ v0 ++ "; " ++ prop ++ "-right: " ++ v0 ++ "; " ++
              prop ++ "-bottom: " ++ v0 ++ "; " ++ prop ++ "-left: " ++ v0 ++ ";"
    | [v0, v1] => prop ++ "-top: " ++ v0 ++ "; " ++ prop ++ "-right: " ++ v1 ++ "; " ++
                  prop ++ "-bottom: " ++ v0 ++ "; " ++ prop ++ "-left: " ++ v1 ++ ";"
    | [v0, v1, v2] => prop ++ "-top: " ++ v0 ++ "; " ++ prop ++ "-right: " ++ v1 ++ "; " ++
                      prop ++ "-bottom: " ++ v2 ++ "; " ++ prop ++ "-left: " ++ v1 ++ ";"
    | [v0, v1, v2, v3] => prop ++ "-top: " ++ v0 ++ "; " ++ prop ++ "-right: " ++ v1 ++ "; " ++
                          prop ++ "-bottom: " ++ v2 ++ "; " ++ prop ++ "-left: " ++ v3 ++ ";"
    | _ => ""
  else if prop = "border-radius" then
    match values with
    | [v0] => "border-top-left-radius: " ++ v0 ++ "; border-top-right-radius: " ++ v0 ++
              "; border-bottom-left-radius: " ++ v0 ++ "; border-bottom-right-radius: " ++ v0 ++ ";"
    | [v0, v1] => "border-top-left-radius: " ++ v0 ++ "; border-top-right-radius: " ++ v1 ++
                  "; border-bottom-right-radius: " ++ v0 ++ "; border-bottom-left-radius: " ++ v1 ++ ";"
    | [v0, v1, v2, v3] => "border-top-left-radius: " ++ v0 ++ "; border-top-right-radius: " ++ v1 ++
                          "; border-bottom-right-radius: " ++ v2 ++ "; border-bottom-left-radius: " ++ v3 ++ ";"
    | _ => ""
  else if prop = "gap" then
    let v0 := values.headD ("")
    let v1 := match values.get? 1 with
              | some v => if v = "" then v0 else v
              | none => v0
    "grid-column-gap: " ++ v0 ++ "; grid-row-gap: " ++ v1 ++ ";"
  else if prop = "background" then
    if strStarts value ("#") || strStarts value ("rgb") || isAlphaWordCI (jsTrim value) then
      "background-color: " ++ value ++ ";"
    else prop ++ ": " ++ value ++ ";"
  else prop ++ ": " ++ value ++ ";"

/-- One step of the `properties.split(';').forEach` loop of
`parseCssToStyleLess` (`converter.ts:186-206`): trim the piece, split at the
first colon, wrap opaque values, otherwise expand shorthands. -/
def processOneDecl (styleLess : String) (p : String) : String :=
  let trimmed := jsTrim p
  if trimmed = "" then styleLess
  else match splitFirstColon trimmed with
    | none => styleLess
    | some (rawName, rawValue) =>
      let propName := jsTrim rawName
      let propValue := wrapCssVariables (jsTrim rawValue)
      if strStarts propValue ("@raw<|") then
        styleLess ++ " " ++ propName ++ ": " ++ propValue ++ ";"
      else
        styleLess ++ " " ++ expandShorthand propName propValue

/-- The declaration-string accumulation for one rule body. -/
def processProps (properties : String) : String :=
  (strSplitChar (fun c => c == ';') properties).foldl processOneDecl ""

/-- Association-list update with JS `Map.set` semantics: overwrite in place
(keeping the original insertion position) or append. -/
def mset {α : Type} : List (String × α) → String → α → List (String × α)
  | [], k, v => [(k, v)]
  | (k0, v0) :: rest, k, v =>
    if k0 = k then (k, v) :: rest else (k0, v0) :: mset rest k v

/-- Association-list lookup with JS `Map.get` semantics. -/
def mget {α : Type} (m : List (String × α)) (k : String) : Option α :=
  (m.find? (fun p => p.1 == k)).map (fun p => p.2)

/-- The rule scanner oracle: models the comment/media stripping plus the rule
regex of `parseCssToStyleLess` (`converter.ts:169-177`), producing the raw
`(match[1], match[2])` capture pairs in scan order. -/
abbrev RuleScanner := String → List (String × String)

/-- `parseCssToStyleLess` (`converter.ts:165-214`) over the scanned rules:
trim the captures, skip at-rules, process the declarations, and store the
trimmed declaration string when nonempty. -/
def parseCssToStyleLess (scan : RuleScanner) (css : String) : List (String × String) :=
  (scan css).foldl
    (fun m pr =>
      let selector := jsTrim pr.1
      let properties := jsTrim pr.2
      if strStarts selector ("@") then m
      else
        let styleLess := processProps properties
        if jsTrim styleLess != "" then mset m selector (jsTrim styleLess) else m)
    []

/-! ## Markup tree model (output of the external `DOMParser` facility) -/

/-- A parsed markup node: an element with tag, attribute list (name/value, in
document order) and child nodes, or a text run. -/
inductive HNode : Type where
  | elem (tag : String) (attrs : List (String × String)) (children : List HNode)
  | text (s : String)

/-- DOM `classList` of an attribute list: the `class` attribute split on
whitespace; `DOMTokenList` iteration skips duplicate tokens. -/
def dedupFirstAux : List String → List String → List String
  | [], _ => []
  | a :: rest, seen =>
    if seen.contains a then dedupFirstAux rest seen
    else a :: dedupFirstAux rest (a :: seen)

/-- Keep the first occurrence of each string. -/
def dedupFirst (l : List String) : List String := dedupFirstAux l []

/-- `el.classList` as a token list. -/
def classListOf (attrs : List (String × String)) : List String :=
  match mget attrs ("class") with
  | some v => dedupFirst ((strSplitChar wsChar v).filter (fun t => t != ""))
  | none => []

/-- `classList` of a node (empty for text nodes). -/
def classListOfNode : HNode → List String
  | .elem _ attrs _ => classListOf attrs
  | .text _ => []

/-- Lower-cased tag name (`el.tagName.toLowerCase()`); `""` for text runs. -/
def tagLower : HNode → String
  | .elem t _ _ => strLower t
  | .text _ => ""

/-- Element-node test (DOM `nodeType === Node.ELEMENT_NODE`). -/
def isElem : HNode → Bool
  | .elem _ _ _ => true
  | .text _ => false

/-- Element children of a node (DOM `el.children`). -/
def elemChildrenOf : HNode → List HNode
  | .elem _ _ ks => ks.filter isElem
  | .text _ => []

mutual
/-- DOM `textContent`: concatenation of all descendant text runs. -/
def textContentOf : HNode → String
  | .text s => s
  | .elem _ _ ks => textContentKids ks

/-- `textContent` over a child list. -/
def textContentKids : List HNode → String
  | [] => ""
  | k :: rest => textContentOf k ++ textContentKids rest
end

/-- Serialization used for `el.outerHTML` of `script`/`svg` elements
(`converter.ts:731,739`); no claim inspects the exact text. -/
def attrsText : List (String × String) → String
  | [] => ""
  | (n, v) :: rest => " " ++ n ++ "=\"" ++ v ++ "\"" ++ attrsText rest

mutual
/-- `el.outerHTML`. -/
def outerHTML : HNode → String
  | .text s => s
  | .elem t a ks => "<" ++ t ++ attrsText a ++ ">" ++ innerHTML ks ++ "</" ++ t ++ ">"

/-- `innerHTML` of a child list. -/
def innerHTML : List HNode → String
  | [] => ""
  | k :: rest => outerHTML k ++ innerHTML rest
end

mutual
/-- `doc.querySelectorAll('style')` contents in document order; a `style`
element contributes its `textContent` (HTML parsing puts only text inside
`style`, so nothing further is collected below one). -/
def collectStyleContents : HNode → List String
  | .text _ => []
  | .elem t _ ks =>
    if strLower t = "style" then [textContentKids ks] else collectStyleKids ks

/-- Style-content collection over a child list. -/
def collectStyleKids : List HNode → List String
  | [] => []
  | k :: rest => collectStyleContents k ++ collectStyleKids rest
end

mutual
/-- The effect of `styleTag.remove()` for every collected style tag
(`converter.ts:378`): drop all `style` elements from the tree. -/
def removeStyleTags : HNode → HNode
  | .text s => .text s
  | .elem t a ks => .elem t a (removeStyleKids ks)

/-- Style removal over a child list. -/
def removeStyleKids : List HNode → List HNode
  | [] => []
  | .text s :: rest => .text s :: removeStyleKids rest
  | .elem t a ks :: rest =>
    if strLower t = "style" then removeStyleKids rest
    else removeStyleTags (.elem t a ks) :: removeStyleKids rest
end

/-! ## Output data model (`types.ts`, with unclaimed payload fields omitted) -/

/-- One node of the output graph (`WebflowNode`): `dataTag` is the original
tag kept in `data.tag`, `v` the text/embed content, `scriptEmbed` the
executable-content flag of embeds. -/
structure WNode where
  _id : String := ""
  type : String := ""
  tag : String := ""
  dataTag : String := ""
  classes : List String := []
  children : List String := []
  text : Bool := false
  v : String := ""
  scriptEmbed : Bool := false
deriving DecidableEq, Repr

/-- One output style (`WebflowStyle`); the constant fields (`fake`,
`namespace`, …) are omitted. -/
structure WStyle where
  _id : String := ""
  name : String := ""
  styleLess : String := ""
deriving DecidableEq, Repr

/-- `TAG_MAP` (`converter.ts:5-40`). -/
def tagMapList : List (String × String) :=
  [("div", "Block"), ("section", "Section"), ("header", "Block"), ("footer", "Block"),
   ("main", "Block"), ("article", "Block"), ("aside", "Block"), ("nav", "Block"),
   ("h1", "Heading"), ("h2", "Heading"), ("h3", "Heading"), ("h4", "Heading"),
   ("h5", "Heading"), ("h6", "Heading"), ("p", "Paragraph"), ("a", "Link"),
   ("span", "Block"), ("img", "Image"), ("ul", "List"), ("ol", "List"),
   ("li", "ListItem"), ("strong", "Strong"), ("b", "Strong"), ("em", "Emphasized"),
   ("i", "Emphasized"), ("blockquote", "Blockquote"), ("figure", "Figure"),
   ("figcaption", "Figcaption"), ("button", "Block"), ("form", "Block"),
   ("input", "Block"), ("label", "Block"), ("textarea", "Block"), ("select", "Block")]

/-- `TAG_MAP[tagName]`. -/
def TAG_MAP (t : String) : Option String := mget tagMapList t

/-- `IGNORED_TAGS` (`converter.ts:43-77`). -/
def IGNORED_TAGS : List String :=
  ["html", "head", "body", "meta", "link", "title", "base", "noscript", "template",
   "slot", "doctype", "!doctype", "colgroup", "col", "caption", "thead", "tbody",
   "tfoot", "tr", "th", "td", "br", "hr", "wbr", "area", "map", "track", "source",
   "param", "object", "embed", "portal", "picture"]

/-- The fresh-id generator standing in for `uuidv4()`: injective, never `""`. -/
def mkId (n : Nat) : String := String.mk (List.replicate (n + 1) ('x'))

/-! ## Conversion session state (`WebflowConverter` fields, `converter.ts:325-333`) -/

/-- The per-conversion mutable state of `WebflowConverter`. -/
structure CState where
  nodes : List WNode := []
  styles : List WStyle := []
  styleIdMap : List (String × String) := []
  usedClasses : List String := []
  complexRules : List (String × String) := []
  selectorToClassMap : List (String × String) := []
  styleMap : List (String × WStyle) := []
  processedMerges : List String := []
  fresh : Nat := 0
deriving Repr

/-- `createHtmlEmbed` plus the `nodes.push` at its call sites
(`converter.ts:618-646,730-743,480-485`). -/
def pushEmbed (st : CState) (content : String) (isScript : Bool) : CState × String :=
  let id := mkId st.fresh
  let nd : WNode := { _id := id, type := "HtmlEmbed", tag := "div", dataTag := "div",
                      classes := [], children := [], v := content, scriptEmbed := isScript }
  ({ st with fresh := st.fresh + 1, nodes := st.nodes ++ [nd] }, id)

/-- The merge branch of the complex-rule loop (`converter.ts:760-772`):
guarded by the `(target style id):(selector)` merge key; on a fresh key the
declaration string is space-appended to the target style both in the
`styleMap` alias and in the `styles` list (one shared object in the source). -/
def mergeAttempt (st : CState) (targetStyleId selector styleLess : String) : CState :=
  let mergeKey := targetStyleId ++ ":" ++ selector
  if st.processedMerges.contains mergeKey then st
  else
    match mget st.styleMap targetStyleId with
    | none => st
    | some styleObj =>
      { st with
        styleMap := mset st.styleMap targetStyleId
          { styleObj with styleLess := styleObj.styleLess ++ " " ++ styleLess },
        styles := st.styles.map (fun s =>
          if s._id = targetStyleId then { s with styleLess := s.styleLess ++ " " ++ styleLess } else s),
        processedMerges := st.processedMerges ++ [mergeKey] }

/-- The `complexRules.forEach` loop of `processElement`
(`converter.ts:755-787`): on a structural match, merge into the first class
style if any, else attach the selector-generated style id. -/
def applyRulesFold (mtch : HNode → String → Bool) (el : HNode) :
    List (String × String) → CState → List String → CState × List String
  | [], st, classIds => (st, classIds)
  | (selector, styleLess) :: rest, st, classIds =>
    if mtch el selector then
      match classIds with
      | targetStyleId :: _ =>
        applyRulesFold mtch el rest (mergeAttempt st targetStyleId selector styleLess) classIds
      | [] =>
        match mget st.selectorToClassMap selector with
        | some generatedName =>
          match mget st.styleIdMap generatedName with
          | some styleId =>
            applyRulesFold mtch el rest st
              (if classIds.contains styleId then classIds else classIds ++ [styleId])
          | none => applyRulesFold mtch el rest st classIds
        | none => applyRulesFold mtch el rest st classIds
    else applyRulesFold mtch el rest st classIds

mutual
/-- `processElement` (`converter.ts:710-992`): ignored tags hoist (returning
`childIds[0] || ''`), `script`/`svg` become embeds, unknown tags become `DOM`
passthrough nodes, mapped tags become typed element nodes, with the `Section`
wrapper special case. -/
def processElement (mtch : HNode → String → Bool) (st : CState) (el : HNode) :
    CState × String :=
  match el with
  | .text _ => (st, "")
  | .elem tag attrs kids =>
    let tagName := strLower tag
    if IGNORED_TAGS.contains tagName then
      let r := processKeptIds mtch st kids
      (r.1, r.2.headD (""))
    else if tagName = "script" then
      pushEmbed st (outerHTML (.elem tag attrs kids)) true
    else if tagName = "svg" then
      pushEmbed st (outerHTML (.elem tag attrs kids)) false
    else
      let classIds0 := (classListOf attrs).filterMap (fun c => mget st.styleIdMap c)
      let applied := applyRulesFold mtch (.elem tag attrs kids) st.complexRules st classIds0
      let st1 := applied.1
      let classIds := applied.2
      match TAG_MAP tagName with
      | none =>
        let id := mkId st1.fresh
        let st2 := { st1 with fresh := st1.fresh + 1 }
        let r := processChildNodes mtch st2 kids
        let nd : WNode := { _id := id, type := "DOM", tag := "div", dataTag := tagName,
                            classes := classIds, children := r.2 }
        ({ r.1 with nodes := r.1.nodes ++ [nd] }, id)
      | some ty =>
        let id := mkId st1.fresh
        let st2 := { st1 with fresh := st1.fresh + 1 }
        if ty = "Section" then
          let directChildren := kids.filter isElem
          let hasBlockWrapper := directChildren.any (fun k =>
            tagLower k = "div" && (classListOfNode k).contains ("container"))
          if !hasBlockWrapper && decide (0 < directChildren.length) then
            let wrapperId := mkId st2.fresh
            let st3 := { st2 with fresh := st2.fresh + 1 }
            let r := processChildNodes mtch st3 kids
            let wrapper : WNode := { _id := wrapperId, type := "Block", tag := "div",
                                     dataTag := "div", classes := [], children := r.2 }
            let nd : WNode := { _id := id, type := ty, tag := tagName, dataTag := tagName,
                                classes := classIds, children := [wrapperId] }
            ({ r.1 with nodes := r.1.nodes ++ [wrapper] ++ [nd] }, id)
          else
            let r := processChildNodes mtch st2 kids
            let nd : WNode := { _id := id, type := ty, tag := tagName, dataTag := tagName,
                                classes := classIds, children := r.2 }
            ({ r.1 with nodes := r.1.nodes ++ [nd] }, id)
        else
          let r := processChildNodes mtch st2 kids
          let nd : WNode := { _id := id, type := ty, tag := tagName, dataTag := tagName,
                              classes := classIds, children := r.2 }
          ({ r.1 with nodes := r.1.nodes ++ [nd] }, id)

/-- The `el.childNodes` loops (`converter.ts:692-705,925-938,944-957,975-988`):
element children contribute their returned id unconditionally (including
`''`), nonempty-trim text runs become text nodes. -/
def processChildNodes (mtch : HNode → String → Bool) (st : CState) (kids : List HNode) :
    CState × List String :=
  match kids with
  | [] => (st, [])
  | .elem t a ks :: rest =>
    let r := processElement mtch st (.elem t a ks)
    let r2 := processChildNodes mtch r.1 rest
    (r2.1, r.2 :: r2.2)
  | .text s :: rest =>
    if jsTrim s != "" then
      let tid := mkId st.fresh
      let tnode : WNode := { _id := tid, text := true, v := jsTrim s }
      let st1 := { st with fresh := st.fresh + 1, nodes := st.nodes ++ [tnode] }
      let r := processChildNodes mtch st1 rest
      (r.1, tid :: r.2)
    else processChildNodes mtch st rest

/-- The ignored-tag branch loop (`converter.ts:716-724`): element children
only, keeping the nonempty returned ids. -/
def processKeptIds (mtch : HNode → String → Bool) (st : CState) (kids : List HNode) :
    CState × List String :=
  match kids with
  | [] => (st, [])
  | .text _ :: rest => processKeptIds mtch st rest
  | .elem t a ks :: rest =>
    let r := processElement mtch st (.elem t a ks)
    let r2 := processKeptIds mtch r.1 rest
    (r2.1, if r.2 != "" then r.2 :: r2.2 else r2.2)
end

/-! ## Style construction (`convert`, `converter.ts:390-445`) and slugs -/

/-- The anchored alternatives of the tag regex in
`generateClassNameFromSelector` (`converter.ts:996`): note `[h1-6]` is a
character class, so it admits the single characters `h`, `1`…`6` (not `h1`). -/
def commonTagSelectors : List String :=
  ["h", "1", "2", "3", "4", "5", "6", "p", "div", "span", "a", "button", "input",
   "section", "header", "footer", "main", "aside", "nav"]

/-- Characters kept by `replace(/[^\w\s-]/g, '')`. -/
def slugKeepChar (c : Char) : Bool := c.isAlphanum || c = '_' || c = '-' || wsChar c

/-- The hyphen-run collapsing replace of the slugifier: each maximal run of
hyphens becomes a single hyphen. -/
def collapseHyphens (s : String) : String :=
  String.mk (s.toList.foldr
    (fun c acc =>
      if c = '-' && (match acc.head? with | some d => d = '-' | none => false) then acc
      else c :: acc) [])

/-- The slugification branch of `generateClassNameFromSelector`
(`converter.ts:1001-1007`): lower-case, strip special characters, trim,
whitespace runs to hyphens, collapse hyphens, prefix. -/
def slugifySelector (selector : String) : String :=
  let s1 := strLower selector
  let s2 := String.mk (s1.toList.filter slugKeepChar)
  let s3 := jsTrim s2
  let s4 := strJoin ("-") ((strSplitChar wsChar s3).filter (fun p => p != ""))
  "scoped-style-" ++ collapseHyphens s4

/-- `generateClassNameFromSelector` (`converter.ts:994-1008`). -/
def generateClassNameFromSelector (selector : String) : String :=
  if commonTagSelectors.contains selector then "custom-styled-" ++ selector
  else slugifySelector selector

/-- The simple-class test of the style pass (`converter.ts:391`). -/
def isSimpleClassSel (selector : String) : Bool :=
  strStarts selector (".") && !(strContains selector (" ")) &&
  !(strContains selector (">")) && !(strContains selector (":")) &&
  !(strContains selector ("["))

/-- The `parsedStyles.forEach` pass (`converter.ts:390-445`): used simple
classes become named styles; unused simple classes are queued for relocation;
every other selector eagerly gets a synthesized style plus entries in
`complexRules`/`selectorToClassMap`. -/
def buildStylesPass : List (String × String) → CState → List String → CState × List String
  | [], st, unused => (st, unused)
  | (selector, styleLess) :: rest, st, unused =>
    if isSimpleClassSel selector then
      let className := strDropOne selector
      if st.usedClasses.contains className then
        let styleId := mkId st.fresh
        let s : WStyle := { _id := styleId, name := className, styleLess := styleLess }
        let st1 := { st with
          fresh := st.fresh + 1,
          styleIdMap := mset st.styleIdMap className styleId,
          styles := st.styles ++ [s],
          styleMap := mset st.styleMap styleId s }
        buildStylesPass rest st1 unused
      else
        buildStylesPass rest st (unused ++ [selector ++ " \x7b " ++ styleLess ++ " \x7d"])
    else
      let generatedName := generateClassNameFromSelector selector
      let styleId := mkId st.fresh
      let s : WStyle := { _id := styleId, name := generatedName, styleLess := styleLess }
      let st1 := { st with
        fresh := st.fresh + 1,
        complexRules := mset st.complexRules selector styleLess,
        selectorToClassMap := mset st.selectorToClassMap selector generatedName,
        styleIdMap := mset st.styleIdMap generatedName styleId,
        styles := st.styles ++ [s],
        styleMap := mset st.styleMap styleId s }
      buildStylesPass rest st1 unused

/-! ## Used-class collection (`collectUsedClasses`, `converter.ts:599-616`) -/

mutual
/-- `collectUsedClasses`: record class tokens of non-ignored elements, then
recurse into children that are not `script`/`svg`/`style`. -/
def collectUsedClasses (el : HNode) (acc : List String) : List String :=
  match el with
  | .text _ => acc
  | .elem tag attrs kids =>
    let acc1 := if IGNORED_TAGS.contains (strLower tag) then acc else acc ++ classListOf attrs
    collectUsedClassesKids kids acc1

/-- Child loop of `collectUsedClasses`. -/
def collectUsedClassesKids (kids : List HNode) (acc : List String) : List String :=
  match kids with
  | [] => acc
  | .text _ :: rest => collectUsedClassesKids rest acc
  | .elem t a ks :: rest =>
    let tl := strLower t
    let acc1 := if tl = "script" || tl = "svg" || tl = "style" then acc
                else collectUsedClasses (.elem t a ks) acc
    collectUsedClassesKids rest acc1
end

/-! ## Graph finalizer (`reorderNodesWithRootFirst`, `converter.ts:564-597`) -/

/-- `nodeMap` construction (`converter.ts:565-566`). -/
def buildNodeMap (nodes : List WNode) : List (String × WNode) :=
  nodes.foldl (fun nm nd => mset nm nd._id nd) []

/-- Fuel bound for the depth-first traversal: every loop step consumes one
worklist entry, and entries are only ever added from a node's child list. -/
def reorderFuel (nodes : List WNode) : Nat :=
  nodes.length + (nodes.map (fun n => n.children.length)).foldl (· + ·) 0 + 1

/-- `addNodeAndChildren` (`converter.ts:571-584`) as a fuelled worklist
traversal: skip visited ids, mark missing ids visited, emit found nodes and
prepend their children (depth-first preorder). -/
def dfsReorder (nm : List (String × WNode)) :
    Nat → List String → List String → List WNode → List String × List WNode
  | 0, _, visited, acc => (visited, acc)
  | _ + 1, [], visited, acc => (visited, acc)
  | fuel + 1, id :: rest, visited, acc =>
    if visited.contains id then dfsReorder nm fuel rest visited acc
    else
      match mget nm id with
      | none => dfsReorder nm fuel rest (visited ++ [id]) acc
      | some nd => dfsReorder nm fuel (nd.children ++ rest) (visited ++ [id]) (acc ++ [nd])

/-- `reorderNodesWithRootFirst` (`converter.ts:564-597`): depth-first from the
root, then the unvisited orphans in creation order. -/
def reorderNodesWithRootFirst (nodes : List WNode) (rootId : String) : List WNode :=
  let nm := buildNodeMap nodes
  let r := dfsReorder nm (reorderFuel nodes) [rootId] [] []
  r.2 ++ nodes.filter (fun nd => !(r.1.contains nd._id))

/-! ## `convert` (`converter.ts:338-561`) -/

/-- Inline-style merging into the external rule map
(`converter.ts:367-376`): a fresh selector is added, an existing one has the
inline declarations space-appended. -/
def mergeParsed (base : List (String × String)) (inline : List (String × String)) :
    List (String × String) :=
  inline.foldl
    (fun ps kv =>
      match mget ps kv.1 with
      | none => mset ps kv.1 kv.2
      | some old => mset ps kv.1 (old ++ " " ++ kv.2))
    base

/-- The effective selector → declaration map of one conversion: external CSS
first, then each inline `<style>` block parsed and merged in document order
(`converter.ts:351,357-379`). -/
def parsedStylesOf (scan : RuleScanner) (body : HNode) (css : String) : List (String × String) :=
  (collectStyleContents body).foldl
    (fun ps content => mergeParsed ps (parseCssToStyleLess scan content))
    (parseCssToStyleLess scan css)

/-- Used-class collection runs on the document body after the style tags were
removed (`converter.ts:378,387`). -/
def usedClassesOf (body : HNode) : List String :=
  collectUsedClasses (removeStyleTags body) []

/-- Fresh session state (`converter.ts:339-344`) after the used-class pass. -/
def initState (used : List String) : CState := { usedClasses := used }

/-- Style construction stage of `convert`: returns the state after the
`parsedStyles.forEach` pass together with the relocated unused rules. -/
def builtOf (scan : RuleScanner) (body : HNode) (css : String) : CState × List String :=
  buildStylesPass (parsedStylesOf scan body css) (initState (usedClassesOf body)) []

/-- `combinedCss` (`converter.ts:449-451`): the external text plus the inline
style contents still present in the document — which were already removed at
`converter.ts:378`, so the inline part is always empty. -/
def combinedCssOf (body : HNode) (css : String) : String :=
  css ++ "\n" ++ strJoin ("\n") (collectStyleContents (removeStyleTags body))

/-- The `doc.body.children` loop (`converter.ts:457-463`): top-level element
children processed in order, keeping nonempty ids. -/
def walkTopFold (mtch : HNode → String → Bool) :
    List HNode → CState → List String → CState × List String
  | [], st, acc => (st, acc)
  | k :: rest, st, acc =>
    let r := processElement mtch st k
    walkTopFold mtch rest r.1 (if r.2 != "" then acc ++ [r.2] else acc)

/-- Everything the conversion returns, plus the intermediate values the
specification speaks about (top-level id list, root id, relocated rules,
extractor input, pre-reorder node list). -/
structure ConvResult where
  nodes : List WNode
  styles : List WStyle
  topLevel : List String
  rootId : String
  combinedCss : String
  unusedRules : List String
  preNodes : List WNode
deriving Repr

/-- State and kept top-level ids after the `doc.body.children` walk. -/
def afterWalk (mtch : HNode → String → Bool) (scan : RuleScanner)
    (body : HNode) (css : String) : CState × List String :=
  walkTopFold mtch (elemChildrenOf (removeStyleTags body)) (builtOf scan body css).1 []

/-- `advancedCssParts` (`converter.ts:466-477`). -/
def partsOf (scan : RuleScanner) (extractAdv : String → String)
    (body : HNode) (css : String) : List String :=
  let advancedCss := extractAdv (combinedCssOf body css)
  let unusedCssRules := (builtOf scan body css).2
  (if advancedCss != "" then [advancedCss] else []) ++
  (if decide (0 < unusedCssRules.length) then
     ["\n/* Unused Classes */", strJoin ("\n") unusedCssRules]
   else [])

/-- The relocated-CSS embed creation (`converter.ts:480-485`): state and
top-level id list after the optional embed append. -/
def withEmbedOf (mtch : HNode → String → Bool) (scan : RuleScanner)
    (extractAdv : String → String) (body : HNode) (css : String) : CState × List String :=
  let walked := afterWalk mtch scan body css
  let parts := partsOf scan extractAdv body css
  if decide (0 < parts.length) then
    let content := "<style>\n" ++ strJoin ("\n") parts ++ "\n</style>"
    let r := pushEmbed walked.1 content false
    (r.1, walked.2 ++ [r.2])
  else walked

/-- The single-root branch (`converter.ts:487-537`): state after the optional
synthetic root push, and the root id. -/
def rootedOf (mtch : HNode → String → Bool) (scan : RuleScanner)
    (extractAdv : String → String) (body : HNode) (css : String) : CState × String :=
  let withEmbed := withEmbedOf mtch scan extractAdv body css
  let st2 := withEmbed.1
  match withEmbed.2 with
  | [] =>
    let id := mkId st2.fresh
    let nd : WNode := { _id := id, type := "Block", tag := "div", dataTag := "div" }
    ({ st2 with fresh := st2.fresh + 1, nodes := st2.nodes ++ [nd] }, id)
  | [x] => (st2, x)
  | _ =>
    let id := mkId st2.fresh
    let nd : WNode := { _id := id, type := "Block", tag := "div", dataTag := "div",
                        children := withEmbed.2 }
    ({ st2 with fresh := st2.fresh + 1, nodes := st2.nodes ++ [nd] }, id)

/-- `WebflowConverter.convert` (`converter.ts:338-561`), composed from the
stages above: parse and merge CSS, build styles, walk the stripped body,
append the relocated-CSS embed, enforce the single root, and reorder. -/
def convertDoc (mtch : HNode → String → Bool) (scan : RuleScanner)
    (extractAdv : String → String) (body : HNode) (css : String) : ConvResult :=
  let rooted := rootedOf mtch scan extractAdv body css
  { nodes := reorderNodesWithRootFirst rooted.1.nodes rooted.2,
    styles := rooted.1.styles,
    topLevel := (withEmbedOf mtch scan extractAdv body css).2,
    rootId := rooted.2,
    combinedCss := combinedCssOf body css,
    unusedRules := (builtOf scan body css).2,
    preNodes := rooted.1.nodes }

/-! ## Specification-side predicates -/

/-- The id list of a node list. -/
def idsOf (nodes : List WNode) : List String := nodes.map (fun n => n._id)

/-- Number of nodes of `l` carrying id `c`. -/
def cntId (c : String) (l : List WNode) : Nat := l.countP (fun nd => nd._id == c)

/-- `(_id, name)` signature of a style list: everything the walk preserves. -/
def sigOf (styles : List WStyle) : List (String × String) :=
  styles.map (fun s => (s._id, s.name))

/-- Facts preserved by every walk step: node/merge lists only grow, the fresh
counter is monotone, the style signature and the selector/class maps are
untouched. -/
structure WalkStep (st st2 : CState) : Prop where
  nodes_ext : ∃ t, st2.nodes = st.nodes ++ t
  fresh_le : st.fresh ≤ st2.fresh
  merges_ext : ∃ t, st2.processedMerges = st.processedMerges ++ t
  sig_eq : sigOf st2.styles = sigOf st.styles
  idmap_eq : st2.styleIdMap = st.styleIdMap
  selmap_eq : st2.selectorToClassMap = st.selectorToClassMap
  rules_eq : st2.complexRules = st.complexRules
  used_eq : st2.usedClasses = st.usedClasses
  new_nodes : ∀ nd ∈ st2.nodes,
    nd ∈ st.nodes ∨ ∃ k, st.fresh ≤ k ∧ k < st2.fresh ∧ nd._id = mkId k

/-- Well-formedness of the session state: ids are counter-generated and below
`fresh`, node and style ids are duplicate-free, and every child reference is
`""` or the id of some node already in the list. -/
structure WalkInv (st : CState) : Prop where
  node_id_lt : ∀ nd ∈ st.nodes, ∃ k, k < st.fresh ∧ nd._id = mkId k
  style_id_lt : ∀ s ∈ st.styles, ∃ k, k < st.fresh ∧ s._id = mkId k
  node_ids_nodup : (idsOf st.nodes).Nodup
  style_ids_nodup : (st.styles.map (fun s => s._id)).Nodup
  children_ok : ∀ nd ∈ st.nodes, ∀ c ∈ nd.children, c = "" ∨ c ∈ idsOf st.nodes

/-- Every binding of the class-name → style-id map points at a style of the
current style list carrying that id and that name. -/
def MapOk (st : CState) : Prop :=
  ∀ p ∈ st.styleIdMap, ∃ s ∈ st.styles, s._id = p.2 ∧ s.name = p.1

/-- No node of the state references (via its style-id list) any style whose
name is `g`. -/
def ClassesOk (g : String) (st : CState) : Prop :=
  ∀ nd ∈ st.nodes, ∀ s ∈ st.styles, s.name = g → s._id ∉ nd.classes

mutual
/-- An element together with all element descendants (the nodes whose
`classList` the walk can consult). -/
def subElems : HNode → List HNode
  | .text _ => []
  | .elem t a ks => .elem t a ks :: subElemsKids ks

/-- `subElems` over a child list. -/
def subElemsKids : List HNode → List HNode
  | [] => []
  | k :: rest => subElems k ++ subElemsKids rest
end

/-- Synthesized style names always carry one of the two generator prefixes. -/
def hasGeneratedPrefix (n : String) : Prop :=
  (strStarts n ("custom-styled-")) = true ∨ (strStarts n ("scoped-style-")) = true

/-- The style record pushed by one step of the style-construction pass (an
abbreviation for the literal appearing in `buildStylesPass`). -/
def freshStyle (st : CState) (n sl : String) : WStyle :=
  { _id := mkId st.fresh, name := n, styleLess := sl }

/-! ## Concrete conversion inputs used by the counterexamples and witnesses -/

/-- Matcher oracle for markups on which no recorded selector matches any
element (all the concrete inputs below are of this kind). -/
def noMatch : HNode → String → Bool := fun _ _ => false

/-- Rule scanner for empty stylesheets. -/
def noScan : RuleScanner := fun _ => []

/-- Advanced-CSS extractor result on inputs carrying none of the extracted
constructs (no at-rules, no attribute/pseudo selectors, no bare global
selectors): every extraction regex finds nothing. -/
def noAdv : String → String := fun _ => ""

/-- `<body><div><br></br></div></body>` — an ignored void tag nested below a
kept element. -/
def bodyDivBr : HNode := .elem "body" [] [.elem "div" [] [.elem "br" [] []]]

/-- `<body><div><tr><p>a</p><p>b</p></tr></div></body>` — an ignored tag with
two kept children below a kept element. -/
def bodyTrTwoPs : HNode :=
  .elem "body" [] [.elem "div" [] [.elem "tr" []
    [.elem "p" [] [.text "a"], .elem "p" [] [.text "b"]]]]

/-- The hoisting example of the specification:
`<body><table><tr><td><p>Text</p></td></tr></table></body>`. -/
def bodyTableP : HNode :=
  .elem "body" [] [.elem "table" [] [.elem "tr" [] [.elem "td" []
    [.elem "p" [] [.text "Text"]]]]]

/-- CSS with two distinct selectors that slugify to the same synthesized
name. -/
def cssTwoSlugs : String := "div p { color: red; } div > p { color: blue; }"

/-- The capture pairs the rule regex produces on `cssTwoSlugs`. -/
def scanTwoSlugs : RuleScanner := fun s =>
  if s = cssTwoSlugs then [("div p ", " color: red; "), (" div > p ", " color: blue; ")]
  else []

/-- Element test of the matcher oracle below: is the node a `p` element. -/
def isPElem : HNode → Bool
  | .elem t _ _ => t == "p"
  | .text _ => false

/-- Matcher oracle for `bodyDivSectionP` below: in that document
`el.matches("div p")` holds exactly of the paragraph (the only `p`, with a
`div` ancestor), while `el.matches("div > p")` holds of no element (the
paragraph's parent is the `section`). -/
def mtchDivP : HNode → String → Bool := fun el sel => sel == "div p" && isPElem el

/-- `<body><div><section><p>hi</p></section></div></body>`: the `div p`
selector matches the paragraph, `div > p` matches nothing, and no element
carries any class attribute. -/
def bodyDivSectionP : HNode :=
  .elem "body" [] [.elem "div" [] [.elem "section" [] [.elem "p" [] [.text "hi"]]]]

/-- `<body><div>hi</div></body>`. -/
def bodyPlainDiv : HNode := .elem "body" [] [.elem "div" [] [.text "hi"]]

/-- CSS whose unused simple class name collides with the slug of a tag
selector. -/
def cssSlugCollide : String := ".scoped-style-x { color: red; } x { color: blue; }"

/-- The capture pairs the rule regex produces on `cssSlugCollide`. -/
def scanSlugCollide : RuleScanner := fun s =>
  if s = cssSlugCollide then
    [(".scoped-style-x ", " color: red; "), (" x ", " color: blue; ")]
  else []

/-- CSS with one unused simple class. -/
def cssUnusedFoo : String := ".foo \x7b color: red; \x7d"

/-- The capture pair the rule regex produces on `cssUnusedFoo`. -/
def scanUnusedFoo : RuleScanner := fun s =>
  if s = cssUnusedFoo then [(".foo ", " color: red; ")] else []

/-- `<body><div class="bar">hi</div></body>`. -/
def bodyClassBar : HNode := .elem "body" [] [.elem "div" [("class", "bar")] [.text "hi"]]

/-- CSS consisting of the single tag rule `p { color: red; }`. -/
def cssTagP : String := "p \x7b color: red; \x7d"

/-- The capture pair the rule regex produces on `cssTagP`. -/
def scanTagP : RuleScanner := fun s =>
  if s = cssTagP then [("p ", " color: red; ")] else []

/-- `<body><div class="custom-styled-p">x</div></body>` — a literal class
token equal to the synthesized name of the `p` tag selector. -/
def bodyClassCustomP : HNode :=
  .elem "body" [] [.elem "div" [("class", "custom-styled-p")] [.text "x"]]

/-- `<body><p>hi</p></body>`. -/
def bodyPlainP : HNode := .elem "body" [] [.elem "p" [] [.text "hi"]]

/-- CSS consisting of the single rule `.x { width: calc(100% - 20px); }`. -/
def cssCalcWidth : String := ".x \x7b width: calc(100% - 20px); \x7d"

/-- The capture pair the rule regex produces on `cssCalcWidth`. -/
def scanCalcWidth : RuleScanner := fun s =>
  if s = cssCalcWidth then [(".x ", " width: calc(100% - 20px); ")] else []

/-- Children of a markup body whose inline `<style>` block holds an `@media`
construct: `<style>@media (max-width: 600px) ...</style><div>x</div>`. -/
def bodyInlineMediaKids : List HNode :=
  [.elem "style" [] [.text "@media (max-width: 600px) \x7b .a \x7b color: red; \x7d \x7d"],
   .elem "div" [] [.text "x"]]

/-- `<body><style>@media ...</style><div>x</div></body>`. -/
def bodyInlineMedia : HNode := .elem "body" [] bodyInlineMediaKids

/-! # Theorems

First general-purpose lemmas about the helpers, then the machinery for the
tree-walk invariants, then one theorem (plus witness / counterexample where
required) per claim. -/

/-! ## String lemmas -/

theorem toList_append (s t : String) : (s ++ t).toList = s.toList ++ t.toList := by
  cases s; cases t; rfl

theorem isPrefixList_append_self (l t : List Char) : isPrefixList l (l ++ t) = true := by
  induction l with
  | nil => rfl
  | cons a as ih => simp [isPrefixList, ih]

theorem dropWhile_head_false {p : Char → Bool} {l t : List Char} {a : Char}
    (h : l.dropWhile p = a :: t) : p a = false := by
  induction l with
  | nil => simp [List.dropWhile] at h
  | cons c cs ih =>
    rw [List.dropWhile_cons] at h
    by_cases hc : p c
    · rw [if_pos hc] at h; exact ih h
    · rw [if_neg hc] at h
      cases h
      simpa using hc

theorem dropWhile_eq_self_of_rdrop (p : Char → Bool) (l : List Char) :
    List.dropWhile p (List.rdropWhile p (List.dropWhile p l)) =
      List.rdropWhile p (List.dropWhile p l) := by
  obtain ⟨t, ht⟩ := List.rdropWhile_prefix p (List.dropWhile p l)
  cases hB : List.rdropWhile p (List.dropWhile p l) with
  | nil => rfl
  | cons b bs =>
    rw [hB] at ht
    have hhead : p b = false := by
      have : List.dropWhile p l = b :: (bs ++ t) := by
        rw [← ht]; rfl
      exact dropWhile_head_false this
    rw [List.dropWhile_cons, hhead]
    simp

theorem jsTrimList_eq (l : List Char) :
    jsTrimList l = List.rdropWhile wsChar (List.dropWhile wsChar l) := rfl

theorem jsTrimList_idem (l : List Char) : jsTrimList (jsTrimList l) = jsTrimList l := by
  rw [jsTrimList_eq, jsTrimList_eq]
  rw [dropWhile_eq_self_of_rdrop]
  exact List.rdropWhile_idempotent wsChar (List.dropWhile wsChar l)

theorem jsTrim_idem (s : String) : jsTrim (jsTrim s) = jsTrim s := by
  show String.mk (jsTrimList (jsTrimList s.toList)) = String.mk (jsTrimList s.toList)
  rw [jsTrimList_idem]

theorem strStarts_append_self (pre x : String) : strStarts (pre ++ x) pre = true := by
  show isPrefixList pre.toList (pre ++ x).toList = true
  rw [toList_append]
  exact isPrefixList_append_self _ _

/-! ## Claim C5 — shorthand expansion -/

/-- C5: the normalizer expands the box-model and corner shorthands exactly as
specified: `padding: 10px 20px` becomes the four sides with top/bottom `10px`
and right/left `20px`, and `border-radius: 4px 8px` gives top-left and
bottom-right radii `4px`, top-right and bottom-left radii `8px`. -/
theorem claim5_shorthand_expansion :
    expandShorthand "padding" "10px 20px" =
      "padding-top: 10px; padding-right: 20px; padding-bottom: 10px; padding-left: 20px;" ∧
    expandShorthand "border-radius" "4px 8px" =
      "border-top-left-radius: 4px; border-top-right-radius: 8px; " ++
      "border-bottom-right-radius: 4px; border-bottom-left-radius: 8px;" := by
  constructor
  · decide
  · decide

/-! ## Claim C6 — opaque-value wrapping -/

/-- C6: any declaration whose (trimmed) value carries one of the five
opaque-function markers is emitted as `name: @raw<|value|>;` with the entire
trimmed value wrapped verbatim — the shorthand expander is bypassed no matter
what the property name is; and on the rule `.x { width: calc(100% - 20px); }`
the normalizer yields exactly the declaration string
`width: @raw<|calc(100% - 20px)|>;`. -/
theorem claim6_raw_wrapping :
    (∀ (acc p n v : String), splitFirstColon (jsTrim p) = some (n, v) →
      hasRawFnMarker (jsTrim v) = true →
      processOneDecl acc p =
        acc ++ " " ++ jsTrim n ++ ": " ++ ("@raw<|" ++ jsTrim v ++ "|>") ++ ";") ∧
    parseCssToStyleLess scanCalcWidth cssCalcWidth =
      [(".x", "width: @raw<|calc(100% - 20px)|>;")] := by
  constructor
  · intro acc p n v hsplit hmark
    have htrim : jsTrim p ≠ "" := by
      intro h
      rw [h] at hsplit
      simp [splitFirstColon, splitFirstCharList] at hsplit
    simp only [processOneDecl, wrapCssVariables]
    rw [if_neg htrim, hsplit]
    simp [jsTrim_idem, hmark, String.append_assoc, strStarts_append_self]
  · decide

/-- Witness for C6 at the declaration `width: calc(100% - 20px)`. -/
theorem claim6_raw_wrapping_witness :
    processOneDecl "" "width: calc(100% - 20px)" =
      "" ++ " " ++ jsTrim "width" ++ ": " ++
        ("@raw<|" ++ jsTrim " calc(100% - 20px)" ++ "|>") ++ ";" :=
  claim6_raw_wrapping.1 "" "width: calc(100% - 20px)" "width" " calc(100% - 20px)"
    (by decide) (by decide)

/-! ## Claim C2 — counterexample: dangling empty-string child reference -/

/-- C2 is false as stated: converting `<body><div><br></br></div></body>` with
empty CSS stores the empty string in the `div` node's children list
(`processElement` returns `childIds[0] || ''` for the ignored `br` and the
child loop pushes the result unchecked), and no node of the output carries the
id `""`. -/
theorem claim2_counterexample :
    ∃ nd ∈ (convertDoc noMatch noScan noAdv bodyDivBr "").nodes,
      "" ∈ nd.children ∧
      ∀ m ∈ (convertDoc noMatch noScan noAdv bodyDivBr "").nodes, m._id ≠ "" := by
  decide

/-! ## Claim C3 — counterexample: only the first kept child is hoisted -/

/-- C3 is false as stated: for
`<body><div><tr><p>a</p><p>b</p></tr></div></body>` the ignored `tr` has two
kept children, but only the first paragraph is spliced into the `div`; the
second paragraph node (the one holding the text `b`) exists in the output yet
appears in no children list. -/
theorem claim3_counterexample :
    ∃ pb ∈ (convertDoc noMatch noScan noAdv bodyTrTwoPs "").nodes,
      pb.tag = "p" ∧
      (∃ tb ∈ (convertDoc noMatch noScan noAdv bodyTrTwoPs "").nodes,
        tb.text = true ∧ tb.v = "b" ∧ tb._id ∈ pb.children) ∧
      ∀ m ∈ (convertDoc noMatch noScan noAdv bodyTrTwoPs "").nodes,
        pb._id ∉ m.children := by
  decide

/-! ## Claim C4 — counterexample: synthesized style names can collide -/

/-- C4 is false as stated: with CSS `div p { color: red; } div > p { ... }`
(no markup match needed — the styles are created eagerly), both selectors
slugify to `scoped-style-div-p`, so the output style list holds two distinct
styles with the same name. -/
theorem claim4_counterexample :
    ∃ s1 ∈ (convertDoc noMatch scanTwoSlugs noAdv bodyPlainDiv cssTwoSlugs).styles,
      ∃ s2 ∈ (convertDoc noMatch scanTwoSlugs noAdv bodyPlainDiv cssTwoSlugs).styles,
        s1._id ≠ s2._id ∧ s1.name = s2.name := by
  decide

/-! ## Claim C7 — counterexample: a style named after an unused class -/

/-- C7 is false as stated: with CSS
`.scoped-style-x { color: red; } x { color: blue; }` and markup carrying no
class, the simple class `scoped-style-x` is unused and its rule is relocated
to the embed — but the tag rule `x` eagerly synthesizes a style whose
slugified name is exactly `scoped-style-x`, so the output style list does
contain a style named after the unused class. -/
theorem claim7_counterexample :
    isSimpleClassSel ".scoped-style-x" = true ∧
    "scoped-style-x" ∉ usedClassesOf bodyPlainDiv ∧
    (∃ r ∈ (convertDoc noMatch scanSlugCollide noAdv bodyPlainDiv cssSlugCollide).unusedRules,
      r = ".scoped-style-x \x7b color: red; \x7d") ∧
    ∃ s ∈ (convertDoc noMatch scanSlugCollide noAdv bodyPlainDiv cssSlugCollide).styles,
      s.name = "scoped-style-x" := by
  decide

/-! ## Claim C10 — counterexample: a never-matched synthesized style can be
referenced through a literal class token -/

/-- C10 is false as stated: with CSS `p { color: red; }` and markup
`<div class="custom-styled-p">x</div>` the selector `p` matches no element
(the matcher oracle is constantly false), yet the synthesized style named
`custom-styled-p` is referenced by the `div` node: the literal class token
resolves to it through the shared class-name → style-id map. -/
theorem claim10_counterexample :
    isSimpleClassSel "p" = false ∧
    (∀ el sel, noMatch el sel = false) ∧
    ∃ s ∈ (convertDoc noMatch scanTagP noAdv bodyClassCustomP cssTagP).styles,
      s.name = generateClassNameFromSelector "p" ∧
      ∃ nd ∈ (convertDoc noMatch scanTagP noAdv bodyClassCustomP cssTagP).nodes,
        s._id ∈ nd.classes := by
  refine ⟨by decide, fun el sel => rfl, ?_⟩
  decide

/-! ## Claim C9 — the extractor input misses the inline style content -/

theorem collect_remove_kids (ks : List HNode) :
    collectStyleKids (removeStyleKids ks) = [] := by
  match ks with
  | [] => rfl
  | .text s :: rest =>
    simp [removeStyleKids, collectStyleKids, collectStyleContents,
      collect_remove_kids rest]
  | .elem t a kk :: rest =>
    by_cases h : strLower t = "style"
    · simp [removeStyleKids, h, collect_remove_kids rest]
    · simp [removeStyleKids, h, collectStyleKids, removeStyleTags, collectStyleContents,
        collect_remove_kids kk, collect_remove_kids rest]

/-- C9 (code bug): the `combinedCss` handed to the advanced-CSS extractor is
always exactly the external stylesheet text plus a trailing newline — the
inline `<style>` blocks were already removed from the document when their
contents are re-collected (`converter.ts:378` versus `converter.ts:449`), so
the collection at the extraction site is empty for every input. In
particular, for a markup whose inline style block holds an `@media` construct
and an empty external sheet, the extractor input is `"\n"` and contains no
`@media`, although the inline content does. -/
theorem claim9_extractor_input :
    (∀ (t : String) (a : List (String × String)) (ks : List HNode) (css : String),
      strLower t ≠ "style" →
      combinedCssOf (.elem t a ks) css = css ++ "\n") ∧
    strContains (strJoin "\n" (collectStyleContents bodyInlineMedia)) "@media" = true ∧
    combinedCssOf bodyInlineMedia "" = "\n" ∧
    strContains (combinedCssOf bodyInlineMedia "") "@media" = false := by
  refine ⟨?_, by decide, by decide, by decide⟩
  intro t a ks css h
  show css ++ "\n" ++ strJoin "\n" (collectStyleContents (removeStyleTags (.elem t a ks))) =
    css ++ "\n"
  rw [show removeStyleTags (.elem t a ks) = .elem t a (removeStyleKids ks) from rfl]
  simp [collectStyleContents, h, collect_remove_kids, strJoin]

/-- Witness for C9 at the inline-`@media` markup with empty external CSS. -/
theorem claim9_extractor_input_witness :
    strLower "body" ≠ "style" ∧ combinedCssOf bodyInlineMedia "" = "" ++ "\n" :=
  ⟨by decide, claim9_extractor_input.1 "body" [] bodyInlineMediaKids "" (by decide)⟩

/-! ## Association-list lemmas -/

theorem mget_mem {α : Type} {m : List (String × α)} {k : String} {v : α}
    (h : mget m k = some v) : (k, v) ∈ m := by
  unfold mget at h
  cases hf : m.find? (fun p => p.1 == k) with
  | none => rw [hf] at h; simp at h
  | some pr =>
    rw [hf] at h
    simp at h
    have hmem := List.mem_of_find?_eq_some hf
    have hkey : (pr.1 == k) = true := @List.find?_some _ (fun q => q.1 == k) pr m hf
    have : pr = (k, v) := by
      cases pr
      simp_all [beq_iff_eq]
    rwa [this] at hmem

theorem mem_mset {α : Type} {m : List (String × α)} {k : String} {v : α} {pr : String × α}
    (h : pr ∈ mset m k v) : pr ∈ m ∨ pr = (k, v) := by
  induction m with
  | nil => simp [mset] at h; right; exact h
  | cons hd tl ih =>
    unfold mset at h
    by_cases hk : hd.1 = k
    · rw [if_pos hk] at h
      rcases List.mem_cons.mp h with h | h
      · right; rw [h]
      · left; simp [h]
    · simp [hk] at h
      rcases h with h | h
      · left; simp [h]
      · rcases ih h with h2 | h2
        · left; simp [h2]
        · right; exact h2

theorem mget_mset_self {α : Type} (m : List (String × α)) (k : String) (v : α) :
    mget (mset m k v) k = some v := by
  induction m with
  | nil => simp [mset, mget, List.find?]
  | cons hd tl ih =>
    unfold mset
    by_cases hk : hd.1 = k
    · simp [hk, mget, List.find?]
    · simp only [if_neg hk]
      unfold mget at ih ⊢
      rw [List.find?_cons]
      have : (hd.1 == k) = false := by simp [hk]
      rw [this]
      exact ih

theorem mget_mset_isSome {α : Type} {m : List (String × α)} {c : String}
    (h : (mget m c).isSome = true) (k : String) (v : α) :
    (mget (mset m k v) c).isSome = true := by
  by_cases hck : c = k
  · rw [hck, mget_mset_self]; rfl
  · induction m with
    | nil => unfold mget at h; simp [List.find?] at h
    | cons hd tl ih =>
      unfold mset
      by_cases hk : hd.1 = k
      · simp only [if_pos hk]
        unfold mget at h ⊢
        rw [List.find?_cons] at h ⊢
        have hkc : ¬(k = c) := fun he => hck he.symm
        have hnew : (k == c) = false := by simp [hkc]
        have hold : (hd.1 == c) = false := by rw [hk]; exact hnew
        rw [hold] at h
        rw [hnew]
        exact h
      · simp only [if_neg hk]
        unfold mget at h ⊢
        rw [List.find?_cons] at h ⊢
        by_cases hc : hd.1 = c
        · have : (hd.1 == c) = true := by simp [hc]
          rw [this] at h ⊢
          exact h
        · have : (hd.1 == c) = false := by simp [hc]
          rw [this] at h ⊢
          exact ih h

/-! ## `buildNodeMap` and `dfsReorder` lemmas -/

theorem buildNodeMap_entry {nodes : List WNode} :
    ∀ pr ∈ buildNodeMap nodes, pr.2._id = pr.1 ∧ pr.2 ∈ nodes := by
  have main : ∀ (l : List WNode) (nm : List (String × WNode)),
      (∀ pr ∈ nm, pr.2._id = pr.1 ∧ (pr.2 ∈ nodes ∨ pr.2 ∈ l)) →
      (∀ nd ∈ l, nd ∈ nodes) →
      ∀ pr ∈ l.foldl (fun nm nd => mset nm nd._id nd) nm,
        pr.2._id = pr.1 ∧ pr.2 ∈ nodes := by
    intro l
    induction l with
    | nil =>
      intro nm hnm _ pr hpr
      rcases hnm pr hpr with ⟨h1, h2 | h2⟩
      · exact ⟨h1, h2⟩
      · exact absurd h2 (List.not_mem_nil _)
    | cons nd rest ih =>
      intro nm hnm hl pr hpr
      simp only [List.foldl_cons] at hpr
      refine ih (mset nm nd._id nd) ?_ (fun x hx => hl x (by simp [hx])) pr hpr
      intro q hq
      rcases mem_mset hq with hq2 | hq2
      · rcases hnm q hq2 with ⟨h1, h2 | h2⟩
        · exact ⟨h1, Or.inl h2⟩
        · rcases List.mem_cons.mp h2 with h3 | h3
          · exact ⟨h1, Or.inl (h3 ▸ hl nd (by simp))⟩
          · exact ⟨h1, Or.inr h3⟩
      · rw [hq2]
        exact ⟨rfl, Or.inl (hl nd (by simp))⟩
  intro pr hpr
  exact main nodes [] (by simp) (fun nd h => h) pr hpr

theorem buildNodeMap_mget_of_mem {nodes : List WNode} {c : String}
    (hc : c ∈ idsOf nodes) :
    ∃ nd, mget (buildNodeMap nodes) c = some nd ∧ nd._id = c ∧ nd ∈ nodes := by
  have hsome : (mget (buildNodeMap nodes) c).isSome = true := by
    obtain ⟨nd, hnd, hid⟩ := by simpa [idsOf] using hc
    have main : ∀ (l : List WNode) (nm : List (String × WNode)),
        (nd ∈ l ∨ (mget nm c).isSome = true) →
        (mget (l.foldl (fun nm nd => mset nm nd._id nd) nm) c).isSome = true := by
      intro l
      induction l with
      | nil =>
        intro nm h
        rcases h with h | h
        · exact absurd h (List.not_mem_nil _)
        · exact h
      | cons x rest ih =>
        intro nm h
        simp only [List.foldl_cons]
        rcases h with h | h
        · rcases List.mem_cons.mp h with h2 | h2
          · refine ih _ (Or.inr ?_)
            rw [← h2, hid, mget_mset_self]
            rfl
          · exact ih _ (Or.inl h2)
        · exact ih _ (Or.inr (mget_mset_isSome h _ _))
    exact main nodes [] (Or.inl hnd)
  cases hm : mget (buildNodeMap nodes) c with
  | none => rw [hm] at hsome; simp at hsome
  | some nd =>
    have hval := buildNodeMap_entry (c, nd) (mget_mem hm)
    exact ⟨nd, rfl, hval.1, hval.2⟩

theorem buildNodeMap_val_id {nodes : List WNode} {c : String} {nd : WNode}
    (h : mget (buildNodeMap nodes) c = some nd) : nd._id = c ∧ nd ∈ nodes :=
  buildNodeMap_entry (c, nd) (mget_mem h)

theorem dfs_spec (nm : List (String × WNode)) :
    ∀ (fuel : Nat) (wl visited : List String) (acc : List WNode), ∃ w,
      (dfsReorder nm fuel wl visited acc).1 = visited ++ w ∧
      (dfsReorder nm fuel wl visited acc).2 =
        acc ++ w.filterMap (fun id => mget nm id) ∧
      (∀ id ∈ w, id ∉ visited) ∧ w.Nodup := by
  intro fuel
  induction fuel with
  | zero => intro wl visited acc; exact ⟨[], by simp [dfsReorder], by simp [dfsReorder], by simp, by simp⟩
  | succ n ih =>
    intro wl visited acc
    cases wl with
    | nil => exact ⟨[], by simp [dfsReorder], by simp [dfsReorder], by simp, by simp⟩
    | cons id rest =>
      by_cases hv : id ∈ visited
      · obtain ⟨w, h1, h2, h3, h4⟩ := ih rest visited acc
        exact ⟨w, by simp [dfsReorder, hv, h1], by simp [dfsReorder, hv, h2], h3, h4⟩
      · have hvmem : id ∉ visited := hv
        cases hm : mget nm id with
        | none =>
          obtain ⟨w, h1, h2, h3, h4⟩ := ih rest (visited ++ [id]) acc
          refine ⟨id :: w, ?_, ?_, ?_, ?_⟩
          · simp [dfsReorder, hv, hm, h1]
          · simp [dfsReorder, hv, hm, h2, List.filterMap_cons]
          · intro x hx
            rcases List.mem_cons.mp hx with hx | hx
            · rw [hx]; exact hvmem
            · intro hxv
              exact h3 x hx (by simp [hxv])
          · refine List.nodup_cons.mpr ⟨?_, h4⟩
            intro hid
            exact h3 id hid (by simp)
        | some nd =>
          obtain ⟨w, h1, h2, h3, h4⟩ := ih (nd.children ++ rest) (visited ++ [id]) (acc ++ [nd])
          refine ⟨id :: w, ?_, ?_, ?_, ?_⟩
          · simp [dfsReorder, hv, hm, h1]
          · simp [dfsReorder, hv, hm, h2, List.filterMap_cons]
          · intro x hx
            rcases List.mem_cons.mp hx with hx | hx
            · rw [hx]; exact hvmem
            · intro hxv
              exact h3 x hx (by simp [hxv])
          · refine List.nodup_cons.mpr ⟨?_, h4⟩
            intro hid
            exact h3 id hid (by simp)

/-! ## Reorder preserves the node collection -/

theorem cntId_append (c : String) (l1 l2 : List WNode) :
    cntId c (l1 ++ l2) = cntId c l1 + cntId c l2 := List.countP_append _ _ _

theorem cntId_cons (c : String) (nd : WNode) (l : List WNode) :
    cntId c (nd :: l) = cntId c l + (if nd._id = c then 1 else 0) := by
  rw [cntId, List.countP_cons, ← cntId]
  congr 1
  by_cases h : nd._id = c <;> simp [h]

theorem cntId_eq_one_of_nodup {nodes : List WNode} (h : (idsOf nodes).Nodup)
    {c : String} (hc : c ∈ idsOf nodes) : cntId c nodes = 1 := by
  induction nodes with
  | nil => exact absurd hc (List.not_mem_nil _)
  | cons nd rest ih =>
    have hids : idsOf (nd :: rest) = nd._id :: idsOf rest := rfl
    rw [hids] at h hc
    obtain ⟨h1, h2⟩ := List.nodup_cons.mp h
    rcases List.mem_cons.mp hc with hc2 | hc2
    · have hz : cntId c rest = 0 := by
        rw [cntId, List.countP_eq_zero]
        intro x hx hbe
        apply h1
        have hxc : x._id = c := by simpa using hbe
        rw [← hc2, ← hxc]
        exact List.mem_map_of_mem (fun n => n._id) hx
      rw [cntId_cons, hz, if_pos hc2.symm]
    · have hne : nd._id ≠ c := fun he => h1 (he ▸ hc2)
      rw [cntId_cons, ih h2 hc2, if_neg hne]

theorem cntId_eq_zero_of_not_mem {nodes : List WNode} {c : String}
    (hc : c ∉ idsOf nodes) : cntId c nodes = 0 := by
  rw [cntId, List.countP_eq_zero]
  intro x hx hbe
  apply hc
  have hxc : x._id = c := by simpa using hbe
  exact hxc ▸ List.mem_map_of_mem (fun n => n._id) hx

theorem cntId_filterMap {nm : List (String × WNode)}
    (hnm : ∀ id v, mget nm id = some v → v._id = id) (c : String) :
    ∀ (w : List String), w.Nodup →
      cntId c (w.filterMap (fun id => mget nm id)) =
        if c ∈ w ∧ (mget nm c).isSome = true then 1 else 0 := by
  intro w
  induction w with
  | nil => simp [cntId]
  | cons id w1 ih =>
    intro hnd
    obtain ⟨hnotin, hnd1⟩ := List.nodup_cons.mp hnd
    have hw1 := ih hnd1
    cases hm : mget nm id with
    | none =>
      rw [List.filterMap_cons_none hm, hw1]
      by_cases hidc : id = c
      · subst hidc
        simp [hm, hnotin]
      · have hiff : (c ∈ id :: w1 ∧ (mget nm c).isSome = true) ↔
            (c ∈ w1 ∧ (mget nm c).isSome = true) := by
          constructor
          · rintro ⟨hcmem, hs⟩
            rcases List.mem_cons.mp hcmem with he | he
            · exact absurd he.symm hidc
            · exact ⟨he, hs⟩
          · rintro ⟨hcmem, hs⟩
            exact ⟨List.mem_cons_of_mem _ hcmem, hs⟩
        rw [if_congr hiff rfl rfl]
    | some v =>
      rw [List.filterMap_cons_some hm, cntId_cons, hw1]
      have hvid : v._id = id := hnm id v hm
      by_cases hidc : id = c
      · have hcin : c ∈ id :: w1 := by rw [hidc]; exact List.mem_cons_self _ _
        have hmc : mget nm c = some v := by rw [← hidc]; exact hm
        have hz : ¬(c ∈ w1 ∧ (mget nm c).isSome = true) :=
          fun hcc => hnotin (by rw [hidc]; exact hcc.1)
        rw [if_neg hz, if_pos (hvid.trans hidc), if_pos ⟨hcin, by rw [hmc]; rfl⟩]
      · have hvne : v._id ≠ c := by rw [hvid]; exact hidc
        rw [if_neg hvne]
        have hiff : (c ∈ id :: w1 ∧ (mget nm c).isSome = true) ↔
            (c ∈ w1 ∧ (mget nm c).isSome = true) := by
          constructor
          · rintro ⟨hcmem, hs⟩
            rcases List.mem_cons.mp hcmem with he | he
            · exact absurd he.symm hidc
            · exact ⟨he, hs⟩
          · rintro ⟨hcmem, hs⟩
            exact ⟨List.mem_cons_of_mem _ hcmem, hs⟩
        rw [if_congr hiff rfl rfl]
        simp

theorem cntId_orphans (c : String) (vis : List String) :
    ∀ (nodes : List WNode),
      cntId c (nodes.filter (fun nd => !(vis.contains nd._id))) =
        if c ∈ vis then 0 else cntId c nodes := by
  intro nodes
  induction nodes with
  | nil => simp [cntId]
  | cons nd rest ih =>
    rw [List.filter_cons]
    by_cases hin : nd._id ∈ vis
    · rw [if_neg (by simp [hin]), ih]
      by_cases hc : c ∈ vis
      · rw [if_pos hc, if_pos hc]
      · have hne : nd._id ≠ c := fun he => hc (he ▸ hin)
        rw [if_neg hc, if_neg hc, cntId_cons, if_neg hne]
        simp
    · rw [if_pos (by simp [hin]), cntId_cons, ih]
      by_cases hc : c ∈ vis
      · have hne : nd._id ≠ c := fun he => hin (he ▸ hc)
        rw [if_pos hc, if_pos hc, if_neg hne]
      · rw [if_neg hc, if_neg hc, cntId_cons]

theorem reorder_cntId {nodes : List WNode} (hnd : (idsOf nodes).Nodup)
    (rootId : String) {c : String} (hc : c ∈ idsOf nodes) :
    cntId c (reorderNodesWithRootFirst nodes rootId) = 1 := by
  simp only [reorderNodesWithRootFirst]
  obtain ⟨w, h1, h2, _h3, h4⟩ :=
    dfs_spec (buildNodeMap nodes) (reorderFuel nodes) [rootId] [] []
  rw [h1, h2]
  simp only [List.nil_append]
  rw [cntId_append]
  have hnm : ∀ id v, mget (buildNodeMap nodes) id = some v → v._id = id :=
    fun id v h => (buildNodeMap_val_id h).1
  rw [cntId_filterMap hnm c w h4, cntId_orphans]
  by_cases hcw : c ∈ w
  · have hsome : (mget (buildNodeMap nodes) c).isSome = true := by
      obtain ⟨nd, hnd2, _⟩ := buildNodeMap_mget_of_mem hc
      rw [hnd2]; rfl
    simp [hcw, hsome]
  · rw [if_neg (by rintro ⟨h, _⟩; exact hcw h), if_neg hcw]
    rw [cntId_eq_one_of_nodup hnd hc]

theorem mem_reorder {nodes : List WNode} {rootId : String} {nd : WNode}
    (h : nd ∈ reorderNodesWithRootFirst nodes rootId) : nd ∈ nodes := by
  simp only [reorderNodesWithRootFirst] at h
  obtain ⟨w, _, hacc, _, _⟩ :=
    dfs_spec (buildNodeMap nodes) (reorderFuel nodes) [rootId] [] []
  rw [hacc] at h
  simp only [List.nil_append] at h
  rcases List.mem_append.mp h with h2 | h2
  · obtain ⟨id, _, hm⟩ := List.mem_filterMap.mp h2
    exact (buildNodeMap_val_id hm).2
  · exact List.mem_of_mem_filter h2

theorem exists_mem_reorder_of_mem {nodes : List WNode} (hnd : (idsOf nodes).Nodup)
    (rootId : String) {nd : WNode} (h : nd ∈ nodes) :
    ∃ nd2 ∈ reorderNodesWithRootFirst nodes rootId, nd2._id = nd._id := by
  have hc : nd._id ∈ idsOf nodes := List.mem_map_of_mem (fun n => n._id) h
  have h1 := reorder_cntId hnd rootId hc
  by_contra hno
  push_neg at hno
  have hz : cntId nd._id (reorderNodesWithRootFirst nodes rootId) = 0 := by
    rw [cntId, List.countP_eq_zero]
    intro x hx hbe
    exact hno x hx (by simpa using hbe)
  rw [hz] at h1
  exact absurd h1 (by decide)

theorem nodes_id_inj {nodes : List WNode} (hnd : (idsOf nodes).Nodup)
    {a b : WNode} (ha : a ∈ nodes) (hb : b ∈ nodes) (hid : a._id = b._id) : a = b := by
  induction nodes with
  | nil => exact absurd ha (List.not_mem_nil _)
  | cons nd rest ih =>
    simp only [idsOf, List.map_cons, List.nodup_cons] at hnd
    rcases List.mem_cons.mp ha with ha2 | ha2 <;> rcases List.mem_cons.mp hb with hb2 | hb2
    · rw [ha2, hb2]
    · exfalso
      apply hnd.1
      rw [← ha2, hid]
      exact List.mem_map_of_mem (fun n => n._id) hb2
    · exfalso
      apply hnd.1
      rw [← hb2, ← hid]
      exact List.mem_map_of_mem (fun n => n._id) ha2
    · exact ih hnd.2 ha2 hb2

theorem reorder_head {nodes : List WNode} {rootId : String} {root : WNode}
    (hnd : (idsOf nodes).Nodup) (hmem : root ∈ nodes) (hid : root._id = rootId) :
    (reorderNodesWithRootFirst nodes rootId).head? = some root := by
  unfold reorderNodesWithRootFirst
  have hc0 : root._id ∈ idsOf nodes := List.mem_map_of_mem (fun x => x._id) hmem
  have hc1 : rootId ∈ idsOf nodes := hid ▸ hc0
  obtain ⟨nd, hm, hnid, hnmem⟩ := buildNodeMap_mget_of_mem hc1
  have hroot : nd = root := nodes_id_inj hnd hnmem hmem (by rw [hnid, hid])
  have hpos : 0 < reorderFuel nodes := Nat.succ_pos _
  obtain ⟨n, hn⟩ : ∃ k, reorderFuel nodes = k + 1 :=
    ⟨reorderFuel nodes - 1, (Nat.succ_pred_eq_of_pos hpos).symm⟩
  rw [hn]
  show ((dfsReorder (buildNodeMap nodes) (n + 1) [rootId] [] []).2 ++ _).head? = _
  have hstep : dfsReorder (buildNodeMap nodes) (n + 1) [rootId] [] [] =
      dfsReorder (buildNodeMap nodes) n (nd.children ++ []) [rootId] [nd] := by
    show (if ([] : List String).contains rootId then _ else _) = _
    simp [hm]
  rw [hstep]
  obtain ⟨w, _h1, h2, _h3, _h4⟩ :=
    dfs_spec (buildNodeMap nodes) n (nd.children ++ []) [rootId] [nd]
  rw [h2, hroot]
  simp

/-! ## Walk-step machinery -/

theorem mkId_inj {a b : Nat} (h : mkId a = mkId b) : a = b := by
  unfold mkId at h
  have hdata : List.replicate (a + 1) ('x') = List.replicate (b + 1) ('x') := by
    injection h
  have hlen := congrArg List.length hdata
  simpa using hlen

theorem mkId_ne_empty (n : Nat) : mkId n ≠ "" := by
  intro h
  have h2 : List.replicate (n + 1) ('x') = "".toList := congrArg String.toList h
  simp [List.replicate_succ] at h2

theorem idsOf_append (a b : List WNode) : idsOf (a ++ b) = idsOf a ++ idsOf b := by
  simp [idsOf]

theorem WalkStep.refl (st : CState) : WalkStep st st :=
  { nodes_ext := ⟨[], by simp⟩
    fresh_le := Nat.le_refl _
    merges_ext := ⟨[], by simp⟩
    sig_eq := rfl
    idmap_eq := rfl
    selmap_eq := rfl
    rules_eq := rfl
    used_eq := rfl
    new_nodes := fun _ h => Or.inl h }

theorem WalkStep.trans {a b c : CState} (h1 : WalkStep a b) (h2 : WalkStep b c) :
    WalkStep a c := by
  obtain ⟨t1, ht1⟩ := h1.nodes_ext
  obtain ⟨t2, ht2⟩ := h2.nodes_ext
  obtain ⟨m1, hm1⟩ := h1.merges_ext
  obtain ⟨m2, hm2⟩ := h2.merges_ext
  refine
    { nodes_ext := ⟨t1 ++ t2, by rw [ht2, ht1, List.append_assoc]⟩
      fresh_le := Nat.le_trans h1.fresh_le h2.fresh_le
      merges_ext := ⟨m1 ++ m2, by rw [hm2, hm1, List.append_assoc]⟩
      sig_eq := h2.sig_eq.trans h1.sig_eq
      idmap_eq := h2.idmap_eq.trans h1.idmap_eq
      selmap_eq := h2.selmap_eq.trans h1.selmap_eq
      rules_eq := h2.rules_eq.trans h1.rules_eq
      used_eq := h2.used_eq.trans h1.used_eq
      new_nodes := ?_ }
  intro nd hnd
  rcases h2.new_nodes nd hnd with h | ⟨k, hk1, hk2, hk3⟩
  · rcases h1.new_nodes nd h with h | ⟨k, hk1, hk2, hk3⟩
    · exact Or.inl h
    · exact Or.inr ⟨k, hk1, Nat.lt_of_lt_of_le hk2 h2.fresh_le, hk3⟩
  · exact Or.inr ⟨k, Nat.le_trans h1.fresh_le hk1, hk2, hk3⟩

theorem step_bump (st : CState) : WalkStep st { st with fresh := st.fresh + 1 } :=
  { nodes_ext := ⟨[], by simp⟩
    fresh_le := Nat.le_succ _
    merges_ext := ⟨[], by simp⟩
    sig_eq := rfl
    idmap_eq := rfl
    selmap_eq := rfl
    rules_eq := rfl
    used_eq := rfl
    new_nodes := fun _ h => Or.inl h }

theorem inv_bump {st : CState} (h : WalkInv st) : WalkInv { st with fresh := st.fresh + 1 } :=
  { node_id_lt := fun nd hnd => by
      obtain ⟨k, hk, hkid⟩ := h.node_id_lt nd hnd
      exact ⟨k, Nat.lt_succ_of_lt hk, hkid⟩
    style_id_lt := fun s hs => by
      obtain ⟨k, hk, hkid⟩ := h.style_id_lt s hs
      exact ⟨k, Nat.lt_succ_of_lt hk, hkid⟩
    node_ids_nodup := h.node_ids_nodup
    style_ids_nodup := h.style_ids_nodup
    children_ok := h.children_ok }

theorem sigOf_merge_map (styles : List WStyle) (t sl : String) :
    sigOf (styles.map (fun s =>
      if s._id = t then { s with styleLess := s.styleLess ++ " " ++ sl } else s)) =
    sigOf styles := by
  unfold sigOf
  rw [List.map_map]
  apply List.map_congr_left
  intro s _
  by_cases h : s._id = t <;> simp [h]

theorem idsOf_styles_merge_map (styles : List WStyle) (t sl : String) :
    (styles.map (fun s =>
      if s._id = t then { s with styleLess := s.styleLess ++ " " ++ sl } else s)).map
        (fun s => s._id) = styles.map (fun s => s._id) := by
  rw [List.map_map]
  apply List.map_congr_left
  intro s _
  by_cases h : s._id = t <;> simp [h]

theorem mergeAttempt_step (st : CState) (t sel sl : String) :
    WalkStep st (mergeAttempt st t sel sl) := by
  unfold mergeAttempt
  by_cases h : st.processedMerges.contains (t ++ ":" ++ sel) = true
  · rw [if_pos h]; exact WalkStep.refl st
  · rw [if_neg h]
    cases hm : mget st.styleMap t with
    | none => exact WalkStep.refl st
    | some so =>
      exact
        { nodes_ext := ⟨[], by simp⟩
          fresh_le := Nat.le_refl _
          merges_ext := ⟨[t ++ ":" ++ sel], rfl⟩
          sig_eq := sigOf_merge_map _ _ _
          idmap_eq := rfl
          selmap_eq := rfl
          rules_eq := rfl
          used_eq := rfl
          new_nodes := fun _ h => Or.inl h }

theorem mergeAttempt_inv {st : CState} (h : WalkInv st) (t sel sl : String) :
    WalkInv (mergeAttempt st t sel sl) := by
  unfold mergeAttempt
  by_cases hc : st.processedMerges.contains (t ++ ":" ++ sel) = true
  · rw [if_pos hc]; exact h
  · rw [if_neg hc]
    cases hm : mget st.styleMap t with
    | none => exact h
    | some so =>
      refine
        { node_id_lt := h.node_id_lt
          style_id_lt := ?_
          node_ids_nodup := h.node_ids_nodup
          style_ids_nodup := ?_
          children_ok := h.children_ok }
      · intro s hs
        obtain ⟨s0, hs0, hf⟩ := List.mem_map.mp hs
        obtain ⟨k, hk, hkid⟩ := h.style_id_lt s0 hs0
        refine ⟨k, hk, ?_⟩
        rw [← hf]
        by_cases he : s0._id = t
        · rw [if_pos he]
          exact hkid
        · rw [if_neg he]
          exact hkid
      · rw [show ({ st with
            styleMap := mset st.styleMap t
              { so with styleLess := so.styleLess ++ " " ++ sl },
            styles := st.styles.map (fun s =>
              if s._id = t then { s with styleLess := s.styleLess ++ " " ++ sl } else s),
            processedMerges := st.processedMerges ++ [t ++ ":" ++ sel] } : CState).styles =
          st.styles.map (fun s =>
            if s._id = t then { s with styleLess := s.styleLess ++ " " ++ sl } else s) from rfl]
        rw [idsOf_styles_merge_map]
        exact h.style_ids_nodup

theorem applyRulesFold_ok (mtch : HNode → String → Bool) (el : HNode) :
    ∀ (rules : List (String × String)) (st : CState) (classIds : List String),
      WalkStep st (applyRulesFold mtch el rules st classIds).1 ∧
      (WalkInv st → WalkInv (applyRulesFold mtch el rules st classIds).1) := by
  intro rules
  induction rules with
  | nil => exact fun st cid => ⟨WalkStep.refl st, fun h => h⟩
  | cons pr rest ih =>
    intro st cid
    obtain ⟨sel, sl⟩ := pr
    simp only [applyRulesFold]
    by_cases hm : mtch el sel = true
    · rw [if_pos hm]
      cases cid with
      | cons c0 crest =>
        exact ⟨WalkStep.trans (mergeAttempt_step st c0 sel sl) (ih _ _).1,
          fun hinv => (ih _ _).2 (mergeAttempt_inv hinv c0 sel sl)⟩
      | nil =>
        cases hsel : mget st.selectorToClassMap sel with
        | none =>
          simp only [hsel]
          exact ih st []
        | some gname =>
          simp only [hsel]
          cases hsid : mget st.styleIdMap gname with
          | none =>
            simp only [hsid]
            exact ih st []
          | some sid =>
            simp only [hsid]
            exact ih st _
    · rw [if_neg hm]
      exact ih st cid

theorem step_alloc_push {st st1 stc : CState}
    (h01 : WalkStep st st1)
    (hc : WalkStep { st1 with fresh := st1.fresh + 1 } stc)
    (nd : WNode) (hid : nd._id = mkId st1.fresh) :
    WalkStep st { stc with nodes := stc.nodes ++ [nd] } := by
  have h0c : WalkStep st stc := (h01.trans (step_bump st1)).trans hc
  obtain ⟨t, ht⟩ := h0c.nodes_ext
  have hfr : st1.fresh + 1 ≤ stc.fresh := hc.fresh_le
  refine
    { nodes_ext := ⟨t ++ [nd], by
        show stc.nodes ++ [nd] = st.nodes ++ (t ++ [nd])
        rw [ht, List.append_assoc]⟩
      fresh_le := h0c.fresh_le
      merges_ext := h0c.merges_ext
      sig_eq := h0c.sig_eq
      idmap_eq := h0c.idmap_eq
      selmap_eq := h0c.selmap_eq
      rules_eq := h0c.rules_eq
      used_eq := h0c.used_eq
      new_nodes := ?_ }
  intro nd2 hnd2
  rcases List.mem_append.mp hnd2 with h2 | h2
  · exact h0c.new_nodes nd2 h2
  · have : nd2 = nd := by simpa using h2
    refine Or.inr ⟨st1.fresh, h01.fresh_le, ?_, this ▸ hid⟩
    show st1.fresh < stc.fresh
    omega

theorem inv_alloc_push {st1 stc : CState} (hinv1 : WalkInv st1) (hinvc : WalkInv stc)
    (hc : WalkStep { st1 with fresh := st1.fresh + 1 } stc)
    (nd : WNode) (hid : nd._id = mkId st1.fresh)
    (hch : ∀ c ∈ nd.children, c = "" ∨ c ∈ idsOf stc.nodes) :
    WalkInv { stc with nodes := stc.nodes ++ [nd] } := by
  have hfr : st1.fresh + 1 ≤ stc.fresh := hc.fresh_le
  have hnotin : nd._id ∉ idsOf stc.nodes := by
    intro hmem
    obtain ⟨nd2, hnd2, hideq⟩ :
        ∃ x ∈ stc.nodes, x._id = nd._id := by simpa [idsOf] using hmem
    rcases hc.new_nodes nd2 hnd2 with hold | ⟨k, hk1, hk2, hk3⟩
    · have hold2 : nd2 ∈ st1.nodes := hold
      obtain ⟨k, hk, hkid⟩ := hinv1.node_id_lt nd2 hold2
      have : k = st1.fresh := mkId_inj (by rw [← hkid, hideq, hid])
      omega
    · have hk4 : st1.fresh + 1 ≤ k := hk1
      have : k = st1.fresh := mkId_inj (by rw [← hk3, hideq, hid])
      omega
  refine
    { node_id_lt := ?_
      style_id_lt := hinvc.style_id_lt
      node_ids_nodup := ?_
      style_ids_nodup := hinvc.style_ids_nodup
      children_ok := ?_ }
  · intro x hx
    rcases List.mem_append.mp hx with hx | hx
    · exact hinvc.node_id_lt x hx
    · have hxnd : x = nd := by simpa using hx
      exact ⟨st1.fresh, by show st1.fresh < stc.fresh; omega, hxnd ▸ hid⟩
  · show (idsOf (stc.nodes ++ [nd])).Nodup
    rw [idsOf_append]
    refine List.Nodup.append hinvc.node_ids_nodup (List.nodup_singleton _) ?_
    intro a ha hb
    have : a = nd._id := by simpa [idsOf] using hb
    rw [this] at ha
    exact hnotin ha
  · intro x hx c hcx
    rcases List.mem_append.mp hx with hx | hx
    · rcases hinvc.children_ok x hx c hcx with h | h
      · exact Or.inl h
      · exact Or.inr (by rw [idsOf_append]; exact List.mem_append_left _ h)
    · have hxnd : x = nd := by simpa using hx
      rcases hch c (hxnd ▸ hcx) with h | h
      · exact Or.inl h
      · exact Or.inr (by rw [idsOf_append]; exact List.mem_append_left _ h)

theorem pushEmbed_ok (st : CState) (content : String) (isScript : Bool) :
    WalkStep st (pushEmbed st content isScript).1 ∧
    (pushEmbed st content isScript).2 ∈ idsOf (pushEmbed st content isScript).1.nodes ∧
    (WalkInv st → WalkInv (pushEmbed st content isScript).1) := by
  refine ⟨?_, ?_, ?_⟩
  · exact step_alloc_push (WalkStep.refl st) (WalkStep.refl _) _ rfl
  · show mkId st.fresh ∈ idsOf (st.nodes ++ [_])
    rw [idsOf_append]
    exact List.mem_append_right _ (by simp [idsOf])
  · intro h
    exact inv_alloc_push h (inv_bump h) (WalkStep.refl _) _ rfl
      (fun c hc => by simp at hc)

theorem step_ids_mono {a b : CState} (h : WalkStep a b) {c : String}
    (hc : c ∈ idsOf a.nodes) : c ∈ idsOf b.nodes := by
  obtain ⟨t, ht⟩ := h.nodes_ext
  rw [ht, idsOf_append]
  exact List.mem_append_left _ hc

/-- The common "allocate id, process children, push the node" tail of
`processElement` (DOM, regular and simple-`Section` cases). -/
theorem alloc_children_push_ok (st st1 : CState)
    (h01 : WalkStep st st1) (hinv01 : WalkInv st → WalkInv st1)
    (R : CState × List String)
    (hck : WalkStep { st1 with fresh := st1.fresh + 1 } R.1 ∧
           (∀ c ∈ R.2, c = "" ∨ c ∈ idsOf R.1.nodes) ∧
           (WalkInv { st1 with fresh := st1.fresh + 1 } → WalkInv R.1))
    (nd : WNode) (hnid : nd._id = mkId st1.fresh) (hnch : nd.children = R.2) :
    WalkStep st { R.1 with nodes := R.1.nodes ++ [nd] } ∧
    (mkId st1.fresh = "" ∨
      mkId st1.fresh ∈ idsOf ({ R.1 with nodes := R.1.nodes ++ [nd] } : CState).nodes) ∧
    (WalkInv st → WalkInv { R.1 with nodes := R.1.nodes ++ [nd] }) := by
  refine ⟨step_alloc_push h01 hck.1 nd hnid, ?_, ?_⟩
  · right
    show mkId st1.fresh ∈ idsOf (R.1.nodes ++ [nd])
    rw [idsOf_append]
    exact List.mem_append_right _ (by simp [idsOf, hnid])
  · intro h
    exact inv_alloc_push (hinv01 h) (hck.2.2 (inv_bump (hinv01 h))) hck.1 nd hnid
      (by rw [hnch]; exact hck.2.1)

/-- The `Section` wrapper tail of `processElement`: allocate the section id,
allocate the wrapper id, process the children into the wrapper, push wrapper
then section. -/
theorem walk_section_wrapper_ok (st st1 : CState)
    (h01 : WalkStep st st1) (hinv01 : WalkInv st → WalkInv st1)
    (R : CState × List String)
    (hck : WalkStep { st1 with fresh := st1.fresh + 1 + 1 } R.1 ∧
           (∀ c ∈ R.2, c = "" ∨ c ∈ idsOf R.1.nodes) ∧
           (WalkInv { st1 with fresh := st1.fresh + 1 + 1 } → WalkInv R.1))
    (wrapper nd : WNode)
    (hwid : wrapper._id = mkId (st1.fresh + 1)) (hwch : wrapper.children = R.2)
    (hnid : nd._id = mkId st1.fresh) (hnch : nd.children = [mkId (st1.fresh + 1)]) :
    WalkStep st { R.1 with nodes := R.1.nodes ++ [wrapper] ++ [nd] } ∧
    (mkId st1.fresh = "" ∨
      mkId st1.fresh ∈
        idsOf ({ R.1 with nodes := R.1.nodes ++ [wrapper] ++ [nd] } : CState).nodes) ∧
    (WalkInv st → WalkInv { R.1 with nodes := R.1.nodes ++ [wrapper] ++ [nd] }) := by
  have hw : WalkStep { st1 with fresh := st1.fresh + 1 }
      { R.1 with nodes := R.1.nodes ++ [wrapper] } :=
    step_alloc_push (WalkStep.refl _) hck.1 wrapper hwid
  refine ⟨?_, ?_, ?_⟩
  · exact step_alloc_push h01 hw nd hnid
  · right
    show mkId st1.fresh ∈ idsOf (R.1.nodes ++ [wrapper] ++ [nd])
    rw [idsOf_append]
    exact List.mem_append_right _ (by simp [idsOf, hnid])
  · intro h
    have hinv1 := hinv01 h
    have hinv2 : WalkInv { st1 with fresh := st1.fresh + 1 } := inv_bump hinv1
    have hinv3 : WalkInv { st1 with fresh := st1.fresh + 1 + 1 } := inv_bump hinv2
    have hinvR := hck.2.2 hinv3
    have hinvW : WalkInv { R.1 with nodes := R.1.nodes ++ [wrapper] } :=
      inv_alloc_push hinv2 hinvR hck.1 wrapper hwid (by rw [hwch]; exact hck.2.1)
    refine inv_alloc_push hinv1 hinvW hw nd hnid ?_
    intro c hc
    rw [hnch] at hc
    have hc2 : c = mkId (st1.fresh + 1) := by simpa using hc
    right
    show c ∈ idsOf (R.1.nodes ++ [wrapper])
    rw [idsOf_append]
    exact List.mem_append_right _ (by simp [idsOf, hwid, hc2])

mutual
/-- `processElement` only extends the walk state, returns `""` or the id of a
produced node, and preserves the state invariant. -/
theorem processElement_ok (mtch : HNode → String → Bool) (st : CState) (el : HNode) :
    WalkStep st (processElement mtch st el).1 ∧
    ((processElement mtch st el).2 = "" ∨
      (processElement mtch st el).2 ∈ idsOf (processElement mtch st el).1.nodes) ∧
    (WalkInv st → WalkInv (processElement mtch st el).1) := by
  match el with
  | .text s => exact ⟨WalkStep.refl st, Or.inl rfl, fun h => h⟩
  | .elem tag attrs kids =>
    have hkept := processKeptIds_ok mtch st kids
    by_cases hig : IGNORED_TAGS.contains (strLower tag) = true
    · simp only [processElement, hig, if_pos]
      refine ⟨hkept.1, ?_, hkept.2.2⟩
      rcases hr : (processKeptIds mtch st kids).2 with _ | ⟨c, cs⟩
      · left
        rfl
      · right
        have hc := hkept.2.1 c (by rw [hr]; exact List.mem_cons_self _ _)
        exact hc.2
    · by_cases hscr : strLower tag = "script"
      · simp only [processElement, hig, hscr]
        have hp := pushEmbed_ok st (outerHTML (.elem tag attrs kids)) true
        simp only [if_neg, Bool.false_eq_true, if_false, if_pos, if_true]
        exact ⟨hp.1, Or.inr hp.2.1, hp.2.2⟩
      · by_cases hsvg : strLower tag = "svg"
        · simp only [processElement, hig, hscr, hsvg]
          have hp := pushEmbed_ok st (outerHTML (.elem tag attrs kids)) false
          simp only [if_neg, Bool.false_eq_true, if_false, if_pos, if_true]
          exact ⟨hp.1, Or.inr hp.2.1, hp.2.2⟩
        · have hrules := applyRulesFold_ok mtch (.elem tag attrs kids) st.complexRules st
            ((classListOf attrs).filterMap (fun c => mget st.styleIdMap c))
          have hA : WalkStep st
              (applyRulesFold mtch (.elem tag attrs kids) st.complexRules st
                ((classListOf attrs).filterMap (fun c => mget st.styleIdMap c))).1 :=
            hrules.1
          have hAinv := hrules.2
          cases htag : TAG_MAP (strLower tag) with
          | none =>
            simp only [processElement, hig, hscr, hsvg, htag]
            have hck := processChildNodes_ok mtch
              { (applyRulesFold mtch (.elem tag attrs kids) st.complexRules st
                  ((classListOf attrs).filterMap (fun c => mget st.styleIdMap c))).1 with
                fresh := (applyRulesFold mtch (.elem tag attrs kids) st.complexRules st
                  ((classListOf attrs).filterMap (fun c => mget st.styleIdMap c))).1.fresh + 1 }
              kids
            exact alloc_children_push_ok st _ hA hAinv _ hck _ rfl rfl
          | some ty =>
            by_cases hty : ty = "Section"
            · by_cases hwrap :
                (!(kids.filter isElem).any (fun k =>
                    tagLower k = "div" && (classListOfNode k).contains ("container")) &&
                  decide (0 < (kids.filter isElem).length)) = true
              · -- Section with synthesized wrapper: two pushes
                simp only [processElement, hig, hscr, hsvg, htag, hty, hwrap]
                simp only [if_pos, if_true]
                have hck := processChildNodes_ok mtch
                  { (applyRulesFold mtch (.elem tag attrs kids) st.complexRules st
                      ((classListOf attrs).filterMap (fun c => mget st.styleIdMap c))).1 with
                    fresh := (applyRulesFold mtch (.elem tag attrs kids) st.complexRules st
                      ((classListOf attrs).filterMap (fun c => mget st.styleIdMap c))).1.fresh + 1 + 1 }
                  kids
                refine walk_section_wrapper_ok st _ hA hAinv _ hck _ _ rfl rfl rfl rfl
              · simp only [processElement, hig, hscr, hsvg, htag, hty, hwrap]
                simp only [Bool.false_eq_true, if_false]
                have hck := processChildNodes_ok mtch
                  { (applyRulesFold mtch (.elem tag attrs kids) st.complexRules st
                      ((classListOf attrs).filterMap (fun c => mget st.styleIdMap c))).1 with
                    fresh := (applyRulesFold mtch (.elem tag attrs kids) st.complexRules st
                      ((classListOf attrs).filterMap (fun c => mget st.styleIdMap c))).1.fresh + 1 }
                  kids
                exact alloc_children_push_ok st _ hA hAinv _ hck _ rfl rfl
            · simp only [processElement, hig, hscr, hsvg, htag, hty]
              simp only [if_neg, if_false]
              have hck := processChildNodes_ok mtch
                { (applyRulesFold mtch (.elem tag attrs kids) st.complexRules st
                    ((classListOf attrs).filterMap (fun c => mget st.styleIdMap c))).1 with
                  fresh := (applyRulesFold mtch (.elem tag attrs kids) st.complexRules st
                    ((classListOf attrs).filterMap (fun c => mget st.styleIdMap c))).1.fresh + 1 }
                kids
              exact alloc_children_push_ok st _ hA hAinv _ hck _ rfl rfl

/-- `processChildNodes` only extends the state, returns ids that are `""` or
ids of produced nodes, and preserves the invariant. -/
theorem processChildNodes_ok (mtch : HNode → String → Bool) (st : CState)
    (kids : List HNode) :
    WalkStep st (processChildNodes mtch st kids).1 ∧
    (∀ c ∈ (processChildNodes mtch st kids).2,
      c = "" ∨ c ∈ idsOf (processChildNodes mtch st kids).1.nodes) ∧
    (WalkInv st → WalkInv (processChildNodes mtch st kids).1) := by
  match kids with
  | [] =>
    exact ⟨WalkStep.refl st, by intro c hc; exact absurd hc (List.not_mem_nil _),
      fun h => h⟩
  | .elem t a ks :: rest =>
    have h1 := processElement_ok mtch st (.elem t a ks)
    have h2 := processChildNodes_ok mtch (processElement mtch st (.elem t a ks)).1 rest
    simp only [processChildNodes]
    refine ⟨h1.1.trans h2.1, ?_, fun h => h2.2.2 (h1.2.2 h)⟩
    intro c hc
    rcases List.mem_cons.mp hc with hc2 | hc2
    · rcases h1.2.1 with he | he
      · exact Or.inl (hc2.trans he)
      · exact Or.inr (hc2 ▸ step_ids_mono h2.1 he)
    · exact h2.2.1 c hc2
  | .text s :: rest =>
    by_cases ht : (jsTrim s != "") = true
    · simp only [processChildNodes, ht, if_pos, if_true]
      have hpush := alloc_children_push_ok st st (WalkStep.refl st) (fun h => h)
        ({ st with fresh := st.fresh + 1 }, ([] : List String))
        ⟨WalkStep.refl _, by intro c hc; exact absurd hc (List.not_mem_nil _),
          fun h => h⟩
        { _id := mkId st.fresh, text := true, v := jsTrim s } rfl rfl
      have h2 := processChildNodes_ok mtch
        { st with
            fresh := st.fresh + 1,
            nodes := st.nodes ++ [{ _id := mkId st.fresh, text := true, v := jsTrim s }] }
        rest
      refine ⟨hpush.1.trans h2.1, ?_, fun h => h2.2.2 (hpush.2.2 h)⟩
      intro c hc
      rcases List.mem_cons.mp hc with hc2 | hc2
      · right
        rw [hc2]
        refine step_ids_mono h2.1 ?_
        show mkId st.fresh ∈
          idsOf (st.nodes ++ [{ _id := mkId st.fresh, text := true, v := jsTrim s }])
        rw [idsOf_append]
        exact List.mem_append_right _ (by simp [idsOf])
      · exact h2.2.1 c hc2
    · simp only [processChildNodes, ht, Bool.false_eq_true, if_false]
      exact processChildNodes_ok mtch st rest

/-- `processKeptIds` only extends the state, returns nonempty produced-node
ids, and preserves the invariant. -/
theorem processKeptIds_ok (mtch : HNode → String → Bool) (st : CState)
    (kids : List HNode) :
    WalkStep st (processKeptIds mtch st kids).1 ∧
    (∀ c ∈ (processKeptIds mtch st kids).2,
      c ≠ "" ∧ c ∈ idsOf (processKeptIds mtch st kids).1.nodes) ∧
    (WalkInv st → WalkInv (processKeptIds mtch st kids).1) := by
  match kids with
  | [] =>
    exact ⟨WalkStep.refl st, by intro c hc; exact absurd hc (List.not_mem_nil _),
      fun h => h⟩
  | .text s :: rest =>
    simp only [processKeptIds]
    exact processKeptIds_ok mtch st rest
  | .elem t a ks :: rest =>
    have h1 := processElement_ok mtch st (.elem t a ks)
    have h2 := processKeptIds_ok mtch (processElement mtch st (.elem t a ks)).1 rest
    simp only [processKeptIds]
    refine ⟨h1.1.trans h2.1, ?_, fun h => h2.2.2 (h1.2.2 h)⟩
    intro c hc
    by_cases hne : ((processElement mtch st (.elem t a ks)).2 != "") = true
    · rw [if_pos hne] at hc
      rcases List.mem_cons.mp hc with hc2 | hc2
      · constructor
        · rw [hc2]
          intro h0
          rw [h0] at hne
          simp at hne
        · rcases h1.2.1 with he | he
          · exfalso
            rw [he] at hne
            simp at hne
          · rw [hc2]
            exact step_ids_mono h2.1 he
      · exact h2.2.1 c hc2
    · rw [if_neg hne] at hc
      exact h2.2.1 c hc
end

/-! ## Claim C8 — merge idempotence -/

theorem mergeAttempt_of_contains {st : CState} {t sel : String}
    (h : st.processedMerges.contains (t ++ ":" ++ sel) = true) (sl : String) :
    mergeAttempt st t sel sl = st := by
  unfold mergeAttempt
  rw [if_pos h]

/-- C8: the complex-selector merge is idempotent per (target style id,
selector) pair — repeating a merge attempt for the same pair (with any
declaration string) leaves the state unchanged, because the first successful
attempt records the merge key and guarded attempts are no-ops; and the whole
element walk only ever extends the processed-merge set, so a recorded pair
stays recorded for the rest of the conversion run. -/
theorem claim8_merge_idempotent :
    (∀ (st : CState) (t sel sl sl2 : String),
      mergeAttempt (mergeAttempt st t sel sl) t sel sl2 = mergeAttempt st t sel sl) ∧
    (∀ (mtch : HNode → String → Bool) (st : CState) (el : HNode),
      ∃ ext, (processElement mtch st el).1.processedMerges =
        st.processedMerges ++ ext) := by
  constructor
  · intro st t sel sl sl2
    by_cases h : st.processedMerges.contains (t ++ ":" ++ sel) = true
    · rw [mergeAttempt_of_contains h, mergeAttempt_of_contains h]
    · cases hm : mget st.styleMap t with
      | none =>
        have e1 : ∀ sl0, mergeAttempt st t sel sl0 = st := by
          intro sl0
          unfold mergeAttempt
          rw [if_neg h, hm]
        rw [e1, e1]
      | some so =>
        have e1 : mergeAttempt st t sel sl = { st with
            styleMap := mset st.styleMap t
              { so with styleLess := so.styleLess ++ " " ++ sl },
            styles := st.styles.map (fun s =>
              if s._id = t then { s with styleLess := s.styleLess ++ " " ++ sl } else s),
            processedMerges := st.processedMerges ++ [t ++ ":" ++ sel] } := by
          unfold mergeAttempt
          rw [if_neg h, hm]
        rw [e1]
        refine mergeAttempt_of_contains ?_ sl2
        show (st.processedMerges ++ [t ++ ":" ++ sel]).contains (t ++ ":" ++ sel) = true
        exact List.elem_iff.mpr (List.mem_append_right _ (by simp))
  · intro mtch st el
    exact (processElement_ok mtch st el).1.merges_ext

/-! ## Style-pass invariants -/

theorem initState_inv (used : List String) : WalkInv (initState used) :=
  { node_id_lt := fun nd h => absurd h (List.not_mem_nil _)
    style_id_lt := fun s h => absurd h (List.not_mem_nil _)
    node_ids_nodup := by simp [idsOf, initState]
    style_ids_nodup := by simp [initState]
    children_ok := fun nd h => absurd h (List.not_mem_nil _) }

theorem inv_push_style {st : CState} (h : WalkInv st) (s : WStyle)
    (hs : s._id = mkId st.fresh) (st2 : CState)
    (hn : st2.nodes = st.nodes) (hsty : st2.styles = st.styles ++ [s])
    (hf : st2.fresh = st.fresh + 1) :
    WalkInv st2 := by
  refine ⟨?_, ?_, ?_, ?_, ?_⟩
  · intro nd hnd
    rw [hn] at hnd
    obtain ⟨k, hk, hkid⟩ := h.node_id_lt nd hnd
    exact ⟨k, by omega, hkid⟩
  · intro x hx
    rw [hsty] at hx
    rcases List.mem_append.mp hx with hx | hx
    · obtain ⟨k, hk, hkid⟩ := h.style_id_lt x hx
      exact ⟨k, by omega, hkid⟩
    · have hxs : x = s := by simpa using hx
      exact ⟨st.fresh, by omega, hxs ▸ hs⟩
  · rw [show idsOf st2.nodes = idsOf st.nodes from by rw [hn]]
    exact h.node_ids_nodup
  · rw [hsty, List.map_append]
    refine List.Nodup.append h.style_ids_nodup (by simp) ?_
    intro a ha hb
    have has : a = s._id := by simpa using hb
    obtain ⟨x, hx, hxa⟩ := List.mem_map.mp ha
    obtain ⟨k, hk, hkid⟩ := h.style_id_lt x hx
    have : mkId k = mkId st.fresh := by rw [← hkid, hxa, has, hs]
    have := mkId_inj this
    omega
  · intro nd hnd c hc
    rw [hn] at hnd
    rcases h.children_ok nd hnd c hc with h2 | h2
    · exact Or.inl h2
    · right
      rw [show idsOf st2.nodes = idsOf st.nodes from by rw [hn]]
      exact h2

theorem buildStylesPass_inv :
    ∀ (rules : List (String × String)) (st : CState) (unused : List String),
      WalkInv st → WalkInv (buildStylesPass rules st unused).1 := by
  intro rules
  induction rules with
  | nil => exact fun st u h => h
  | cons pr rest ih =>
    intro st u h
    obtain ⟨sel, sl⟩ := pr
    simp only [buildStylesPass]
    by_cases hsimple : isSimpleClassSel sel = true
    · rw [if_pos hsimple]
      by_cases hused : st.usedClasses.contains (strDropOne sel) = true
      · rw [if_pos hused]
        exact ih _ _ (inv_push_style h _ rfl _ rfl rfl rfl)
      · rw [if_neg hused]
        exact ih _ _ h
    · rw [if_neg hsimple]
      exact ih _ _ (inv_push_style h _ rfl _ rfl rfl rfl)

theorem builtOf_inv (scan : RuleScanner) (body : HNode) (css : String) :
    WalkInv (builtOf scan body css).1 :=
  buildStylesPass_inv _ _ _ (initState_inv _)

/-! ## Top-level walk and finalization facts -/

theorem walkTopFold_ok (mtch : HNode → String → Bool) :
    ∀ (elems : List HNode) (st : CState) (acc : List String),
      WalkStep st (walkTopFold mtch elems st acc).1 ∧
      ((∀ c ∈ acc, c ≠ "" ∧ c ∈ idsOf st.nodes) →
        ∀ c ∈ (walkTopFold mtch elems st acc).2,
          c ≠ "" ∧ c ∈ idsOf (walkTopFold mtch elems st acc).1.nodes) ∧
      (WalkInv st → WalkInv (walkTopFold mtch elems st acc).1) := by
  intro elems
  induction elems with
  | nil =>
    intro st acc
    exact ⟨WalkStep.refl st, fun hacc => hacc, fun h => h⟩
  | cons k rest ih =>
    intro st acc
    simp only [walkTopFold]
    have h1 := processElement_ok mtch st k
    by_cases hr : ((processElement mtch st k).2 != "") = true
    · rw [if_pos hr]
      have h2 := ih (processElement mtch st k).1 (acc ++ [(processElement mtch st k).2])
      refine ⟨h1.1.trans h2.1, ?_, fun h => h2.2.2 (h1.2.2 h)⟩
      intro hacc c hc
      refine h2.2.1 ?_ c hc
      intro c2 hc2
      rcases List.mem_append.mp hc2 with hc3 | hc3
      · obtain ⟨hne, hmem⟩ := hacc c2 hc3
        exact ⟨hne, step_ids_mono h1.1 hmem⟩
      · have hc4 : c2 = (processElement mtch st k).2 := by simpa using hc3
        constructor
        · rw [hc4]
          intro h0
          rw [h0] at hr
          simp at hr
        · rcases h1.2.1 with he | he
          · exfalso
            rw [he] at hr
            simp at hr
          · rw [hc4]
            exact he
    · rw [if_neg hr]
      have h2 := ih (processElement mtch st k).1 acc
      refine ⟨h1.1.trans h2.1, ?_, fun h => h2.2.2 (h1.2.2 h)⟩
      intro hacc c hc
      refine h2.2.1 ?_ c hc
      intro c2 hc2
      obtain ⟨hne, hmem⟩ := hacc c2 hc2
      exact ⟨hne, step_ids_mono h1.1 hmem⟩

theorem afterWalk_facts (mtch : HNode → String → Bool) (scan : RuleScanner)
    (body : HNode) (css : String) :
    WalkInv (afterWalk mtch scan body css).1 ∧
    (∀ c ∈ (afterWalk mtch scan body css).2,
      c ≠ "" ∧ c ∈ idsOf (afterWalk mtch scan body css).1.nodes) := by
  have h := walkTopFold_ok mtch (elemChildrenOf (removeStyleTags body))
    (builtOf scan body css).1 []
  exact ⟨h.2.2 (builtOf_inv scan body css),
    h.2.1 (fun c hc => absurd hc (List.not_mem_nil _))⟩

theorem withEmbed_facts (mtch : HNode → String → Bool) (scan : RuleScanner)
    (extractAdv : String → String) (body : HNode) (css : String) :
    WalkInv (withEmbedOf mtch scan extractAdv body css).1 ∧
    (∀ c ∈ (withEmbedOf mtch scan extractAdv body css).2,
      c ≠ "" ∧ c ∈ idsOf (withEmbedOf mtch scan extractAdv body css).1.nodes) := by
  have hAW := afterWalk_facts mtch scan body css
  simp only [withEmbedOf]
  by_cases hp : decide (0 < (partsOf scan extractAdv body css).length) = true
  · rw [if_pos hp]
    have hpe := pushEmbed_ok (afterWalk mtch scan body css).1
      ("<style>\n" ++ strJoin ("\n") (partsOf scan extractAdv body css) ++ "\n</style>")
      false
    refine ⟨hpe.2.2 hAW.1, ?_⟩
    intro c hc
    rcases List.mem_append.mp hc with hc2 | hc2
    · obtain ⟨hne, hmem⟩ := hAW.2 c hc2
      exact ⟨hne, step_ids_mono hpe.1 hmem⟩
    · have hc3 : c = (pushEmbed (afterWalk mtch scan body css).1
          ("<style>\n" ++ strJoin ("\n") (partsOf scan extractAdv body css) ++ "\n</style>")
          false).2 := by simpa using hc2
      rw [hc3]
      exact ⟨mkId_ne_empty _, hpe.2.1⟩
  · rw [if_neg hp]
    exact hAW

theorem rooted_facts (mtch : HNode → String → Bool) (scan : RuleScanner)
    (extractAdv : String → String) (body : HNode) (css : String) :
    WalkInv (rootedOf mtch scan extractAdv body css).1 ∧
    (∃ root ∈ (rootedOf mtch scan extractAdv body css).1.nodes,
      root._id = (rootedOf mtch scan extractAdv body css).2 ∧
      (match (withEmbedOf mtch scan extractAdv body css).2 with
       | [] => root.type = "Block" ∧ root.tag = "div" ∧ root.children = []
       | [x] => root._id = x
       | xs => root.type = "Block" ∧ root.tag = "div" ∧ root.children = xs)) := by
  have hW := withEmbed_facts mtch scan extractAdv body css
  rcases hWl : (withEmbedOf mtch scan extractAdv body css).2 with _ | ⟨x, _ | ⟨y, rest⟩⟩
  · simp only [rootedOf, hWl]
    constructor
    · exact inv_alloc_push hW.1 (inv_bump hW.1) (WalkStep.refl _) _ rfl
        (fun c hc => absurd hc (List.not_mem_nil _))
    · refine ⟨{ _id := mkId (withEmbedOf mtch scan extractAdv body css).1.fresh,
                type := "Block", tag := "div", dataTag := "div" }, ?_, rfl, rfl, rfl, rfl⟩
      exact List.mem_append_right _ (by simp)
  · simp only [rootedOf, hWl]
    refine ⟨hW.1, ?_⟩
    have hx := hW.2 x (by rw [hWl]; exact List.mem_cons_self _ _)
    obtain ⟨nd, hnd, hnid⟩ := List.mem_map.mp hx.2
    exact ⟨nd, hnd, hnid, hnid⟩
  · simp only [rootedOf, hWl]
    have hents : ∀ c ∈ x :: y :: rest,
        c ≠ "" ∧ c ∈ idsOf (withEmbedOf mtch scan extractAdv body css).1.nodes := by
      intro c hc
      exact hW.2 c (by rw [hWl]; exact hc)
    constructor
    · refine inv_alloc_push hW.1 (inv_bump hW.1) (WalkStep.refl _) _ rfl ?_
      intro c hc
      have hc2 : c ∈ x :: y :: rest := hc
      exact Or.inr (hents c hc2).2
    · refine ⟨{ _id := mkId (withEmbedOf mtch scan extractAdv body css).1.fresh,
                type := "Block", tag := "div", dataTag := "div",
                children := x :: y :: rest }, ?_, rfl, rfl, rfl, rfl⟩
      exact List.mem_append_right _ (by simp)

/-! ## Claim C1 — single root, root first -/

/-- C1: for every input, the output node list starts with the root node: with
an empty collected top-level list the root is a synthesized empty `Block`/
`div`; with exactly one collected top-level id that node is the root; with
several, the root is a synthesized `Block`/`div` wrapper whose children are
exactly the collected ids in order (the collected list being the kept
top-level element ids plus the optional relocated-CSS embed id, per the
finalizer contract). -/
theorem claim1_single_root (mtch : HNode → String → Bool) (scan : RuleScanner)
    (extractAdv : String → String) (body : HNode) (css : String) :
    (∃ root, (convertDoc mtch scan extractAdv body css).nodes.head? = some root ∧
      root._id = (convertDoc mtch scan extractAdv body css).rootId ∧
      (match (convertDoc mtch scan extractAdv body css).topLevel with
       | [] => root.type = "Block" ∧ root.tag = "div" ∧ root.children = []
       | [x] => root._id = x
       | xs => root.type = "Block" ∧ root.tag = "div" ∧ root.children = xs)) := by
  obtain ⟨hinv, root, hmem, hid, hcase⟩ := rooted_facts mtch scan extractAdv body css
  refine ⟨root, ?_, hid, hcase⟩
  exact reorder_head hinv.node_ids_nodup hmem hid

/-! ## Claim C2 — amended: nonempty child references resolve uniquely -/

/-- C2 amended: every identifier stored in a children list of the output is
either the empty string (the dangling marker produced by an ignored element
with no kept children, cf. the counterexample) or resolves to exactly one
node of the output node list. -/
theorem claim2_amended (mtch : HNode → String → Bool) (scan : RuleScanner)
    (extractAdv : String → String) (body : HNode) (css : String)
    (nd : WNode) (c : String)
    (hnd : nd ∈ (convertDoc mtch scan extractAdv body css).nodes)
    (hc : c ∈ nd.children) (hne : c ≠ "") :
    ((convertDoc mtch scan extractAdv body css).nodes.filter
      (fun m => m._id == c)).length = 1 := by
  have hfacts := rooted_facts mtch scan extractAdv body css
  have hpre : nd ∈ (rootedOf mtch scan extractAdv body css).1.nodes := mem_reorder hnd
  have hcid : c ∈ idsOf (rootedOf mtch scan extractAdv body css).1.nodes :=
    (hfacts.1.children_ok nd hpre c hc).resolve_left hne
  have hcnt := reorder_cntId hfacts.1.node_ids_nodup
    (rootedOf mtch scan extractAdv body css).2 hcid
  rw [cntId, List.countP_eq_length_filter] at hcnt
  exact hcnt

/-- Witness for the amended C2 on `<body><p>hi</p></body>`: the text node id
stored in the paragraph's children list resolves to exactly one node. -/
theorem claim2_amended_witness :
    ((convertDoc noMatch noScan noAdv bodyPlainP "").nodes.filter
      (fun m => m._id == mkId 1)).length = 1 :=
  claim2_amended noMatch noScan noAdv bodyPlainP ""
    { _id := mkId 0, type := "Paragraph", tag := "p", dataTag := "p",
      children := [mkId 1] }
    (mkId 1) (by decide) (by decide) (by decide)

/-! ## Claim C4 — amended: style-name collisions involve generated names -/

theorem isPrefixList_dot {l : List Char} (h : isPrefixList ['.'] l = true) :
    ∃ cs, l = '.' :: cs := by
  cases l with
  | nil => simp [isPrefixList] at h
  | cons c cs =>
    refine ⟨cs, ?_⟩
    have hc : ('.' == c && isPrefixList [] cs) = true := h
    have hce : '.' = c := by
      simp only [Bool.and_eq_true, beq_iff_eq] at hc
      exact hc.1
    rw [← hce]

theorem simple_sel_decomp {sel : String} (h : isSimpleClassSel sel = true) :
    sel = "." ++ strDropOne sel := by
  have hs : strStarts sel "." = true := by
    unfold isSimpleClassSel at h
    simp only [Bool.and_eq_true] at h
    exact h.1.1.1.1
  unfold strStarts at hs
  have hdot : (".").toList = ['.'] := rfl
  rw [hdot] at hs
  obtain ⟨cs, hcs⟩ := isPrefixList_dot hs
  cases sel with
  | mk l =>
    have hl : l = '.' :: cs := hcs
    rw [hl]
    rfl

theorem generated_prefixed (sel : String) :
    hasGeneratedPrefix (generateClassNameFromSelector sel) := by
  unfold generateClassNameFromSelector
  by_cases h : commonTagSelectors.contains sel = true
  · rw [if_pos h]
    left
    exact strStarts_append_self _ _
  · rw [if_neg h]
    right
    unfold slugifySelector
    exact strStarts_append_self _ _

theorem mem_keys_mset {α : Type} {m : List (String × α)} {k x : String} {v : α}
    (hx : x ∈ (mset m k v).map (fun p => p.1)) :
    x ∈ m.map (fun p => p.1) ∨ x = k := by
  obtain ⟨pr, hpr, hpx⟩ := List.mem_map.mp hx
  rcases mem_mset hpr with h2 | h2
  · exact Or.inl (List.mem_map.mpr ⟨pr, h2, hpx⟩)
  · right
    rw [h2] at hpx
    exact hpx.symm

theorem keys_nodup_mset {α : Type} {m : List (String × α)}
    (h : (m.map (fun p => p.1)).Nodup) (k : String) (v : α) :
    ((mset m k v).map (fun p => p.1)).Nodup := by
  induction m with
  | nil => simp [mset]
  | cons hd tl ih =>
    have hhd : hd.1 ∉ tl.map (fun p => p.1) := (List.nodup_cons.mp h).1
    have htl : (tl.map (fun p => p.1)).Nodup := (List.nodup_cons.mp h).2
    obtain ⟨k0, v0⟩ := hd
    unfold mset
    by_cases hk : k0 = k
    · rw [if_pos hk]
      simp only [List.map_cons, List.nodup_cons]
      exact ⟨by rw [← hk]; exact hhd, htl⟩
    · rw [if_neg hk]
      simp only [List.map_cons, List.nodup_cons]
      refine ⟨?_, ih htl⟩
      intro hmem
      rcases mem_keys_mset hmem with h2 | h2
      · exact hhd h2
      · exact hk h2

theorem foldl_keys_nodup {α β : Type} (f : List (String × α) → β → List (String × α))
    (hf : ∀ m b, (m.map (fun p => p.1)).Nodup → ((f m b).map (fun p => p.1)).Nodup) :
    ∀ (l : List β) (m : List (String × α)),
      (m.map (fun p => p.1)).Nodup → ((l.foldl f m).map (fun p => p.1)).Nodup := by
  intro l
  induction l with
  | nil => exact fun m h => h
  | cons b rest ih =>
    intro m h
    exact ih (f m b) (hf m b h)

theorem parseCss_keys_nodup (scan : RuleScanner) (css : String) :
    ((parseCssToStyleLess scan css).map (fun p => p.1)).Nodup := by
  unfold parseCssToStyleLess
  refine foldl_keys_nodup _ ?_ (scan css) [] (by simp)
  intro m pr h
  dsimp only
  by_cases h1 : strStarts (jsTrim pr.1) ("@") = true
  · rw [if_pos h1]
    exact h
  · rw [if_neg h1]
    by_cases h2 : (jsTrim (processProps (jsTrim pr.2)) != "") = true
    · rw [if_pos h2]
      exact keys_nodup_mset h _ _
    · rw [if_neg h2]
      exact h

theorem mergeParsed_keys_nodup {base : List (String × String)}
    (h : (base.map (fun p => p.1)).Nodup) (inline : List (String × String)) :
    ((mergeParsed base inline).map (fun p => p.1)).Nodup := by
  unfold mergeParsed
  refine foldl_keys_nodup _ ?_ inline base h
  intro m kv hm
  dsimp only
  rcases hg : mget m kv.1 with _ | old <;> exact keys_nodup_mset hm _ _

theorem parsed_keys_nodup (scan : RuleScanner) (body : HNode) (css : String) :
    ((parsedStylesOf scan body css).map (fun p => p.1)).Nodup := by
  unfold parsedStylesOf
  refine foldl_keys_nodup _ ?_ (collectStyleContents body) _ (parseCss_keys_nodup scan css)
  intro m content hm
  exact mergeParsed_keys_nodup hm _

theorem buildStylesPass_name_unique :
    ∀ (rules : List (String × String)) (st : CState) (unused : List String),
      (rules.map (fun p => p.1)).Nodup →
      (∀ s ∈ st.styles, ¬hasGeneratedPrefix s.name →
        ("." ++ s.name) ∉ rules.map (fun p => p.1)) →
      (∀ s1 ∈ st.styles, ∀ s2 ∈ st.styles,
        s1.name = s2.name → s1._id ≠ s2._id → hasGeneratedPrefix s1.name) →
      ∀ s1 ∈ (buildStylesPass rules st unused).1.styles,
        ∀ s2 ∈ (buildStylesPass rules st unused).1.styles,
          s1.name = s2.name → s1._id ≠ s2._id → hasGeneratedPrefix s1.name := by
  intro rules
  induction rules with
  | nil => exact fun st u hnd hfresh hpair => hpair
  | cons pr rest ih =>
    intro st u hnd hfresh hpair
    obtain ⟨sel, sl⟩ := pr
    have hndr : (rest.map (fun p => p.1)).Nodup := (List.nodup_cons.mp hnd).2
    have hselr : sel ∉ rest.map (fun p => p.1) := (List.nodup_cons.mp hnd).1
    simp only [buildStylesPass]
    by_cases hsimple : isSimpleClassSel sel = true
    · rw [if_pos hsimple]
      by_cases hused : st.usedClasses.contains (strDropOne sel) = true
      · rw [if_pos hused]
        refine ih _ _ hndr ?_ ?_
        · intro s hs hnp
          have hs2 : s ∈ st.styles ++ [freshStyle st (strDropOne sel) sl] := hs
          rcases List.mem_append.mp hs2 with hs3 | hs3
          · exact fun hmem => hfresh s hs3 hnp (List.mem_cons_of_mem _ hmem)
          · have hseq : s = freshStyle st (strDropOne sel) sl := List.mem_singleton.mp hs3
            have hn : s.name = strDropOne sel := by rw [hseq]; rfl
            intro hmem
            rw [hn, ← simple_sel_decomp hsimple] at hmem
            exact hselr hmem
        · intro s1 hs1 s2 hs2 hname hne
          have hs1b : s1 ∈ st.styles ++ [freshStyle st (strDropOne sel) sl] := hs1
          have hs2b : s2 ∈ st.styles ++ [freshStyle st (strDropOne sel) sl] := hs2
          rcases List.mem_append.mp hs1b with hs1c | hs1c <;>
            rcases List.mem_append.mp hs2b with hs2c | hs2c
          · exact hpair s1 hs1c s2 hs2c hname hne
          · by_cases hgp : hasGeneratedPrefix s1.name
            · exact hgp
            · exfalso
              have hs2e := List.mem_singleton.mp hs2c
              have hn2 : s2.name = strDropOne sel := by rw [hs2e]; rfl
              apply hfresh s1 hs1c hgp
              rw [hname, hn2, ← simple_sel_decomp hsimple]
              exact List.mem_cons_self _ _
          · by_cases hgp : hasGeneratedPrefix s1.name
            · exact hgp
            · exfalso
              have hs1e := List.mem_singleton.mp hs1c
              have hn1 : s1.name = strDropOne sel := by rw [hs1e]; rfl
              have hgp2 : ¬hasGeneratedPrefix s2.name := by rwa [← hname]
              apply hfresh s2 hs2c hgp2
              rw [← hname, hn1, ← simple_sel_decomp hsimple]
              exact List.mem_cons_self _ _
          · have hs1e := List.mem_singleton.mp hs1c
            have hs2e := List.mem_singleton.mp hs2c
            exfalso
            apply hne
            rw [hs1e, hs2e]
      · rw [if_neg hused]
        refine ih _ _ hndr ?_ hpair
        intro s hs hnp hmem
        exact hfresh s hs hnp (List.mem_cons_of_mem _ hmem)
    · rw [if_neg hsimple]
      refine ih _ _ hndr ?_ ?_
      · intro s hs hnp
        have hs2 : s ∈ st.styles ++ [freshStyle st (generateClassNameFromSelector sel) sl] := hs
        rcases List.mem_append.mp hs2 with hs3 | hs3
        · exact fun hmem => hfresh s hs3 hnp (List.mem_cons_of_mem _ hmem)
        · exfalso
          have hseq := List.mem_singleton.mp hs3
          apply hnp
          rw [hseq]
          exact generated_prefixed sel
      · intro s1 hs1 s2 hs2 hname hne
        have hs1b : s1 ∈ st.styles ++ [freshStyle st (generateClassNameFromSelector sel) sl] := hs1
        have hs2b : s2 ∈ st.styles ++ [freshStyle st (generateClassNameFromSelector sel) sl] := hs2
        rcases List.mem_append.mp hs1b with hs1c | hs1c <;>
          rcases List.mem_append.mp hs2b with hs2c | hs2c
        · exact hpair s1 hs1c s2 hs2c hname hne
        · have hs2e := List.mem_singleton.mp hs2c
          rw [hname, hs2e]
          exact generated_prefixed sel
        · have hs1e := List.mem_singleton.mp hs1c
          rw [hs1e]
          exact generated_prefixed sel
        · have hs1e := List.mem_singleton.mp hs1c
          have hs2e := List.mem_singleton.mp hs2c
          exfalso
          apply hne
          rw [hs1e, hs2e]

theorem builtOf_name_unique (scan : RuleScanner) (body : HNode) (css : String) :
    ∀ s1 ∈ (builtOf scan body css).1.styles,
      ∀ s2 ∈ (builtOf scan body css).1.styles,
        s1.name = s2.name → s1._id ≠ s2._id → hasGeneratedPrefix s1.name := by
  refine buildStylesPass_name_unique _ _ _ (parsed_keys_nodup scan body css) ?_ ?_
  · intro s hs
    exact absurd hs (List.not_mem_nil _)
  · intro s1 hs1
    exact absurd hs1 (List.not_mem_nil _)

theorem withEmbedOf_styles (mtch : HNode → String → Bool) (scan : RuleScanner)
    (extractAdv : String → String) (body : HNode) (css : String) :
    (withEmbedOf mtch scan extractAdv body css).1.styles =
      (afterWalk mtch scan body css).1.styles := by
  simp only [withEmbedOf]
  by_cases hp : decide (0 < (partsOf scan extractAdv body css).length) = true
  · rw [if_pos hp]
    rfl
  · rw [if_neg hp]

theorem rootedOf_styles (mtch : HNode → String → Bool) (scan : RuleScanner)
    (extractAdv : String → String) (body : HNode) (css : String) :
    (rootedOf mtch scan extractAdv body css).1.styles =
      (withEmbedOf mtch scan extractAdv body css).1.styles := by
  rcases hWl : (withEmbedOf mtch scan extractAdv body css).2 with _ | ⟨x, _ | ⟨y, rest⟩⟩ <;>
    simp only [rootedOf, hWl]

theorem afterWalk_sig (mtch : HNode → String → Bool) (scan : RuleScanner)
    (body : HNode) (css : String) :
    sigOf (afterWalk mtch scan body css).1.styles =
      sigOf (builtOf scan body css).1.styles :=
  (walkTopFold_ok mtch (elemChildrenOf (removeStyleTags body))
    (builtOf scan body css).1 []).1.sig_eq

theorem convert_styles_sig (mtch : HNode → String → Bool) (scan : RuleScanner)
    (extractAdv : String → String) (body : HNode) (css : String) :
    sigOf (convertDoc mtch scan extractAdv body css).styles =
      sigOf (builtOf scan body css).1.styles := by
  show sigOf (rootedOf mtch scan extractAdv body css).1.styles = _
  rw [rootedOf_styles, withEmbedOf_styles]
  exact afterWalk_sig mtch scan body css

/-- C4 amended: duplicate style names can occur in the output (cf. the
counterexample: distinct complex selectors can slugify to the same name), but
any name collision — two output styles with distinct ids and the same name —
involves a synthesized name carrying one of the generator prefixes
(`custom-styled-` / `scoped-style-`); styles named after distinct used simple
classes never collide, because the parsed selector → declaration map has
duplicate-free keys. -/
theorem claim4_amended (mtch : HNode → String → Bool) (scan : RuleScanner)
    (extractAdv : String → String) (body : HNode) (css : String)
    (s1 s2 : WStyle)
    (h1 : s1 ∈ (convertDoc mtch scan extractAdv body css).styles)
    (h2 : s2 ∈ (convertDoc mtch scan extractAdv body css).styles)
    (hname : s1.name = s2.name) (hne : s1._id ≠ s2._id) :
    hasGeneratedPrefix s1.name := by
  have hsig := convert_styles_sig mtch scan extractAdv body css
  have hm1 : (s1._id, s1.name) ∈ sigOf (convertDoc mtch scan extractAdv body css).styles :=
    List.mem_map.mpr ⟨s1, h1, rfl⟩
  have hm2 : (s2._id, s2.name) ∈ sigOf (convertDoc mtch scan extractAdv body css).styles :=
    List.mem_map.mpr ⟨s2, h2, rfl⟩
  rw [hsig] at hm1 hm2
  unfold sigOf at hm1 hm2
  obtain ⟨b1, hb1, he1⟩ := List.mem_map.mp hm1
  obtain ⟨b2, hb2, he2⟩ := List.mem_map.mp hm2
  simp only [Prod.mk.injEq] at he1 he2
  have hres := builtOf_name_unique scan body css b1 hb1 b2 hb2
    (by rw [he1.2, he2.2, hname]) (by rw [he1.1, he2.1]; exact hne)
  rwa [he1.2] at hres

/-- Witness for the amended C4 at the colliding-slug counterexample input:
the collision between the two `scoped-style-div-p` styles indeed involves a
generator-prefixed name. -/
theorem claim4_amended_witness :
    hasGeneratedPrefix
      (({ _id := mkId 0, name := "scoped-style-div-p", styleLess := "color: red;" } :
        WStyle).name) :=
  claim4_amended noMatch scanTwoSlugs noAdv bodyPlainDiv cssTwoSlugs
    { _id := mkId 0, name := "scoped-style-div-p", styleLess := "color: red;" }
    { _id := mkId 1, name := "scoped-style-div-p", styleLess := "color: blue;" }
    (by decide) (by decide) (by decide) (by decide)

/-! ## Claim C7 — amended: the unused-class rule is relocated to the embed -/

theorem buildStylesPass_styles_ext :
    ∀ (rules : List (String × String)) (st : CState) (u : List String),
      ∃ ext, (buildStylesPass rules st u).1.styles = st.styles ++ ext := by
  intro rules
  induction rules with
  | nil => exact fun st u => ⟨[], (List.append_nil _).symm⟩
  | cons pr rest ih =>
    intro st u
    obtain ⟨sel, sl⟩ := pr
    simp only [buildStylesPass]
    by_cases hsimple : isSimpleClassSel sel = true
    · rw [if_pos hsimple]
      by_cases hused : st.usedClasses.contains (strDropOne sel) = true
      · rw [if_pos hused]
        obtain ⟨ext, hext⟩ := ih _ u
        refine ⟨freshStyle st (strDropOne sel) sl :: ext, ?_⟩
        rw [hext]
        show (st.styles ++ [freshStyle st (strDropOne sel) sl]) ++ ext = _
        simp
      · rw [if_neg hused]
        exact ih _ _
    · rw [if_neg hsimple]
      obtain ⟨ext, hext⟩ := ih _ u
      refine ⟨freshStyle st (generateClassNameFromSelector sel) sl :: ext, ?_⟩
      rw [hext]
      show (st.styles ++ [freshStyle st (generateClassNameFromSelector sel) sl]) ++ ext = _
      simp

theorem buildStylesPass_name_used (used : List String) :
    ∀ (rules : List (String × String)) (st : CState) (u : List String),
      st.usedClasses = used →
      (∀ s ∈ st.styles, hasGeneratedPrefix s.name ∨ used.contains s.name = true) →
      ∀ s ∈ (buildStylesPass rules st u).1.styles,
        hasGeneratedPrefix s.name ∨ used.contains s.name = true := by
  intro rules
  induction rules with
  | nil => exact fun st u heq h => h
  | cons pr rest ih =>
    intro st u heq h
    obtain ⟨sel, sl⟩ := pr
    simp only [buildStylesPass]
    by_cases hsimple : isSimpleClassSel sel = true
    · rw [if_pos hsimple]
      by_cases hused : st.usedClasses.contains (strDropOne sel) = true
      · rw [if_pos hused]
        intro s hs
        refine ih _ u (by exact heq) ?_ s hs
        intro s2 hs2
        have hs2b : s2 ∈ st.styles ++ [freshStyle st (strDropOne sel) sl] := hs2
        rcases List.mem_append.mp hs2b with h3 | h3
        · exact h s2 h3
        · right
          have he := List.mem_singleton.mp h3
          have hn : s2.name = strDropOne sel := by rw [he]; rfl
          rw [hn, ← heq]
          exact hused
      · rw [if_neg hused]
        exact ih _ _ heq h
    · rw [if_neg hsimple]
      intro s hs
      refine ih _ u (by exact heq) ?_ s hs
      intro s2 hs2
      have hs2b : s2 ∈ st.styles ++
        [freshStyle st (generateClassNameFromSelector sel) sl] := hs2
      rcases List.mem_append.mp hs2b with h3 | h3
      · exact h s2 h3
      · left
        have he := List.mem_singleton.mp h3
        rw [he]
        exact generated_prefixed sel

theorem buildStylesPass_unused_ext :
    ∀ (rules : List (String × String)) (st : CState) (u : List String),
      ∃ ext, (buildStylesPass rules st u).2 = u ++ ext := by
  intro rules
  induction rules with
  | nil => exact fun st u => ⟨[], (List.append_nil _).symm⟩
  | cons pr rest ih =>
    intro st u
    obtain ⟨sel, sl⟩ := pr
    simp only [buildStylesPass]
    by_cases hsimple : isSimpleClassSel sel = true
    · rw [if_pos hsimple]
      by_cases hused : st.usedClasses.contains (strDropOne sel) = true
      · rw [if_pos hused]
        exact ih _ u
      · rw [if_neg hused]
        obtain ⟨ext, hext⟩ := ih st (u ++ [sel ++ " \x7b " ++ sl ++ " \x7d"])
        refine ⟨(sel ++ " \x7b " ++ sl ++ " \x7d") :: ext, ?_⟩
        rw [hext]
        simp
    · rw [if_neg hsimple]
      exact ih _ u

theorem buildStylesPass_unused_mem :
    ∀ (rules : List (String × String)) (st : CState) (u : List String) (sel sl : String),
      (sel, sl) ∈ rules → isSimpleClassSel sel = true →
      st.usedClasses.contains (strDropOne sel) = false →
      (sel ++ " \x7b " ++ sl ++ " \x7d") ∈ (buildStylesPass rules st u).2 := by
  intro rules
  induction rules with
  | nil =>
    intro st u sel sl hmem
    exact absurd hmem (List.not_mem_nil _)
  | cons pr rest ih =>
    intro st u sel sl hmem hsimple hunused
    obtain ⟨sel0, sl0⟩ := pr
    simp only [buildStylesPass]
    rcases List.mem_cons.mp hmem with heq | hmem2
    · have h1 : sel = sel0 := congrArg Prod.fst heq
      have h2 : sl = sl0 := congrArg Prod.snd heq
      subst h1
      subst h2
      rw [if_pos hsimple]
      have hn : ¬(st.usedClasses.contains (strDropOne sel) = true) := by
        rw [hunused]
        exact Bool.false_ne_true
      rw [if_neg hn]
      obtain ⟨ext, hext⟩ :=
        buildStylesPass_unused_ext rest st (u ++ [sel ++ " \x7b " ++ sl ++ " \x7d"])
      rw [hext]
      exact List.mem_append_left _ (List.mem_append_right _ (by simp))
    · by_cases hsimple0 : isSimpleClassSel sel0 = true
      · rw [if_pos hsimple0]
        by_cases hused0 : st.usedClasses.contains (strDropOne sel0) = true
        · rw [if_pos hused0]
          exact ih _ _ sel sl hmem2 hsimple hunused
        · rw [if_neg hused0]
          exact ih _ _ sel sl hmem2 hsimple hunused
      · rw [if_neg hsimple0]
        exact ih _ _ sel sl hmem2 hsimple hunused

theorem buildStylesPass_complex_mem :
    ∀ (rules : List (String × String)) (st : CState) (u : List String) (sel sl : String),
      (sel, sl) ∈ rules → isSimpleClassSel sel = false →
      ∃ s ∈ (buildStylesPass rules st u).1.styles,
        s.name = generateClassNameFromSelector sel := by
  intro rules
  induction rules with
  | nil =>
    intro st u sel sl hmem
    exact absurd hmem (List.not_mem_nil _)
  | cons pr rest ih =>
    intro st u sel sl hmem hcomplex
    obtain ⟨sel0, sl0⟩ := pr
    simp only [buildStylesPass]
    rcases List.mem_cons.mp hmem with heq | hmem2
    · have h1 : sel = sel0 := congrArg Prod.fst heq
      have h2 : sl = sl0 := congrArg Prod.snd heq
      subst h1
      subst h2
      have hn : ¬(isSimpleClassSel sel = true) := by
        rw [hcomplex]
        exact Bool.false_ne_true
      rw [if_neg hn]
      obtain ⟨ext, hext⟩ := buildStylesPass_styles_ext rest _ u
      refine ⟨freshStyle st (generateClassNameFromSelector sel) sl, ?_, rfl⟩
      rw [hext]
      show freshStyle st (generateClassNameFromSelector sel) sl ∈
        (st.styles ++ [freshStyle st (generateClassNameFromSelector sel) sl]) ++ ext
      exact List.mem_append_left _ (List.mem_append_right _ (by simp))
    · by_cases hsimple0 : isSimpleClassSel sel0 = true
      · rw [if_pos hsimple0]
        by_cases hused0 : st.usedClasses.contains (strDropOne sel0) = true
        · rw [if_pos hused0]
          exact ih _ _ sel sl hmem2 hcomplex
        · rw [if_neg hused0]
          exact ih _ _ sel sl hmem2 hcomplex
      · rw [if_neg hsimple0]
        exact ih _ _ sel sl hmem2 hcomplex

/-! ## String-join decompositions for the relocated-CSS embed content -/

theorem foldl_join_ext (sep : String) :
    ∀ (l : List String) (a : String),
      ∃ q, l.foldl (fun acc y => acc ++ sep ++ y) a = a ++ q := by
  intro l
  induction l with
  | nil =>
    intro a
    exact ⟨"", by simp⟩
  | cons y ys ih =>
    intro a
    obtain ⟨q0, hq0⟩ := ih (a ++ sep ++ y)
    refine ⟨sep ++ y ++ q0, ?_⟩
    show ys.foldl (fun acc z => acc ++ sep ++ z) (a ++ sep ++ y) = _
    rw [hq0]
    simp [String.append_assoc]

theorem foldl_join_mem (sep : String) :
    ∀ (l : List String) (a x : String), x ∈ l →
      ∃ p q, l.foldl (fun acc y => acc ++ sep ++ y) a = p ++ (x ++ q) := by
  intro l
  induction l with
  | nil =>
    intro a x hx
    exact absurd hx (List.not_mem_nil _)
  | cons y ys ih =>
    intro a x hx
    rcases List.mem_cons.mp hx with heq | hmem
    · obtain ⟨q0, hq0⟩ := foldl_join_ext sep ys (a ++ sep ++ y)
      refine ⟨a ++ sep, q0, ?_⟩
      show ys.foldl (fun acc z => acc ++ sep ++ z) (a ++ sep ++ y) = _
      rw [hq0, heq]
      simp [String.append_assoc]
    · exact ih (a ++ sep ++ y) x hmem

theorem strJoin_mem_decomp (sep : String) {l : List String} {x : String} (hx : x ∈ l) :
    ∃ p q, strJoin sep l = p ++ (x ++ q) := by
  cases l with
  | nil => exact absurd hx (List.not_mem_nil _)
  | cons y ys =>
    rcases List.mem_cons.mp hx with heq | hmem
    · obtain ⟨q0, hq0⟩ := foldl_join_ext sep ys y
      refine ⟨"", q0, ?_⟩
      show ys.foldl (fun acc z => acc ++ sep ++ z) y = "" ++ (x ++ q0)
      rw [hq0, heq]
      rfl
    · exact foldl_join_mem sep ys y x hmem

theorem strJoin_concat2 (sep b x : String) (l : List String) :
    ∃ P, strJoin sep (l ++ [b, x]) = P ++ x := by
  cases l with
  | nil => exact ⟨b ++ sep, rfl⟩
  | cons a l2 =>
    refine ⟨l2.foldl (fun acc y => acc ++ sep ++ y) a ++ sep ++ b ++ sep, ?_⟩
    show (l2 ++ [b, x]).foldl (fun acc y => acc ++ sep ++ y) a = _
    rw [List.foldl_append]
    rfl

/-! ## The relocated-CSS embed node -/

theorem withEmbedOf_embed (mtch : HNode → String → Bool) (scan : RuleScanner)
    (extractAdv : String → String) (body : HNode) (css : String)
    (hun : (builtOf scan body css).2 ≠ []) :
    ∃ emb : WNode,
      (withEmbedOf mtch scan extractAdv body css).2 =
        (afterWalk mtch scan body css).2 ++ [emb._id] ∧
      emb ∈ (withEmbedOf mtch scan extractAdv body css).1.nodes ∧
      emb.type = "HtmlEmbed" ∧
      emb.v = "<style>\n" ++
        strJoin "\n" (partsOf scan extractAdv body css) ++ "\n</style>" := by
  have h2 : decide (0 < (builtOf scan body css).2.length) = true :=
    decide_eq_true (List.length_pos.mpr hun)
  have hparts : partsOf scan extractAdv body css =
      (if (extractAdv (combinedCssOf body css) != "") = true
        then [extractAdv (combinedCssOf body css)] else []) ++
      ["\n/* Unused Classes */", strJoin "\n" (builtOf scan body css).2] := by
    show (if (extractAdv (combinedCssOf body css) != "") = true
        then [extractAdv (combinedCssOf body css)] else []) ++
      (if decide (0 < (builtOf scan body css).2.length) = true
        then ["\n/* Unused Classes */", strJoin "\n" (builtOf scan body css).2]
        else []) = _
    rw [if_pos h2]
  have hlen : 0 < (partsOf scan extractAdv body css).length := by
    rw [hparts, List.length_append]
    simp
  have hp : decide (0 < (partsOf scan extractAdv body css).length) = true :=
    decide_eq_true hlen
  simp only [withEmbedOf]
  rw [if_pos hp]
  refine ⟨⟨mkId (afterWalk mtch scan body css).1.fresh, "HtmlEmbed", "div", "div", [], [],
      false,
      "<style>\n" ++ strJoin "\n" (partsOf scan extractAdv body css) ++ "\n</style>",
      false⟩, rfl, ?_, rfl, rfl⟩
  exact List.mem_append_right _ (by simp)

theorem rootedOf_nodes_ext (mtch : HNode → String → Bool) (scan : RuleScanner)
    (extractAdv : String → String) (body : HNode) (css : String) :
    ∃ t, (rootedOf mtch scan extractAdv body css).1.nodes =
      (withEmbedOf mtch scan extractAdv body css).1.nodes ++ t := by
  rcases hWl : (withEmbedOf mtch scan extractAdv body css).2 with _ | ⟨x, _ | ⟨y, rest⟩⟩ <;>
    simp only [rootedOf, hWl]
  · exact ⟨_, rfl⟩
  · exact ⟨[], (List.append_nil _).symm⟩
  · exact ⟨_, rfl⟩

theorem mem_convert_nodes (mtch : HNode → String → Bool) (scan : RuleScanner)
    (extractAdv : String → String) (body : HNode) (css : String) {nd : WNode}
    (h : nd ∈ (rootedOf mtch scan extractAdv body css).1.nodes) :
    nd ∈ (convertDoc mtch scan extractAdv body css).nodes := by
  have hinv := (rooted_facts mtch scan extractAdv body css).1
  obtain ⟨nd2, hnd2, hid⟩ := exists_mem_reorder_of_mem hinv.node_ids_nodup
    (rootedOf mtch scan extractAdv body css).2 h
  have hmem2 := mem_reorder hnd2
  have he : nd2 = nd := nodes_id_inj hinv.node_ids_nodup hmem2 h hid
  show nd ∈ reorderNodesWithRootFirst (rootedOf mtch scan extractAdv body css).1.nodes
    (rootedOf mtch scan extractAdv body css).2
  rw [← he]
  exact hnd2

/-- C7 amended: for a simple class rule `.c { decls }` of the parsed rule map
whose class `c` is unused in the stripped document, (i) any output style with
name `c` carries a generator prefix (a colliding synthesized name, cf. the
counterexample — no style for the rule itself is created), (ii) the rule text
`.c { decls }` is relocated into the unused-rules list, and (iii) the output
contains an `HtmlEmbed` node whose `<style>` content carries that exact rule
text, and whose id is the last entry of the collected top-level list. -/
theorem claim7_amended (mtch : HNode → String → Bool) (scan : RuleScanner)
    (extractAdv : String → String) (body : HNode) (css : String) (sel sl : String)
    (hsel : mget (parsedStylesOf scan body css) sel = some sl)
    (hsimple : isSimpleClassSel sel = true)
    (hunused : (usedClassesOf body).contains (strDropOne sel) = false) :
    (∀ s ∈ (convertDoc mtch scan extractAdv body css).styles,
      s.name = strDropOne sel → hasGeneratedPrefix s.name) ∧
    (sel ++ " \x7b " ++ sl ++ " \x7d") ∈
      (convertDoc mtch scan extractAdv body css).unusedRules ∧
    ∃ emb ∈ (convertDoc mtch scan extractAdv body css).nodes,
      emb.type = "HtmlEmbed" ∧
      (∃ p q, emb.v = p ++ ((sel ++ " \x7b " ++ sl ++ " \x7d") ++ q)) ∧
      (convertDoc mtch scan extractAdv body css).topLevel.getLast? = some emb._id := by
  have hrt : (sel ++ " \x7b " ++ sl ++ " \x7d") ∈ (builtOf scan body css).2 :=
    buildStylesPass_unused_mem (parsedStylesOf scan body css)
      (initState (usedClassesOf body)) [] sel sl (mget_mem hsel) hsimple hunused
  refine ⟨?_, hrt, ?_⟩
  · intro s hs hn
    have hm1 : (s._id, s.name) ∈
        sigOf (convertDoc mtch scan extractAdv body css).styles :=
      List.mem_map.mpr ⟨s, hs, rfl⟩
    rw [convert_styles_sig] at hm1
    unfold sigOf at hm1
    obtain ⟨b, hb, he⟩ := List.mem_map.mp hm1
    simp only [Prod.mk.injEq] at he
    have hbn := buildStylesPass_name_used (usedClassesOf body)
      (parsedStylesOf scan body css) (initState (usedClassesOf body)) [] rfl
      (fun s2 h2 => absurd h2 (List.not_mem_nil _)) b hb
    rcases hbn with hpref | hcont
    · rw [← he.2]
      exact hpref
    · exfalso
      rw [he.2, hn] at hcont
      rw [hunused] at hcont
      exact Bool.false_ne_true hcont
  · have hun : (builtOf scan body css).2 ≠ [] := List.ne_nil_of_mem hrt
    obtain ⟨emb, heq, hmem, hty, hv⟩ :=
      withEmbedOf_embed mtch scan extractAdv body css hun
    obtain ⟨t, ht⟩ := rootedOf_nodes_ext mtch scan extractAdv body css
    have hmemR : emb ∈ (rootedOf mtch scan extractAdv body css).1.nodes := by
      rw [ht]
      exact List.mem_append_left _ hmem
    refine ⟨emb, mem_convert_nodes mtch scan extractAdv body css hmemR, hty, ?_, ?_⟩
    · have h2 : decide (0 < (builtOf scan body css).2.length) = true :=
        decide_eq_true (List.length_pos.mpr hun)
      have hparts : partsOf scan extractAdv body css =
          (if (extractAdv (combinedCssOf body css) != "") = true
            then [extractAdv (combinedCssOf body css)] else []) ++
          ["\n/* Unused Classes */", strJoin "\n" (builtOf scan body css).2] := by
        show (if (extractAdv (combinedCssOf body css) != "") = true
            then [extractAdv (combinedCssOf body css)] else []) ++
          (if decide (0 < (builtOf scan body css).2.length) = true
            then ["\n/* Unused Classes */", strJoin "\n" (builtOf scan body css).2]
            else []) = _
        rw [if_pos h2]
      obtain ⟨P, hP⟩ := strJoin_concat2 "\n" ("\n/* Unused Classes */")
        (strJoin "\n" (builtOf scan body css).2)
        (if (extractAdv (combinedCssOf body css) != "") = true
          then [extractAdv (combinedCssOf body css)] else [])
      obtain ⟨p0, q0, hp0⟩ := strJoin_mem_decomp "\n" hrt
      refine ⟨"<style>\n" ++ P ++ p0, q0 ++ "\n</style>", ?_⟩
      rw [hv, hparts, hP, hp0]
      simp [String.append_assoc]
    · have htl : (convertDoc mtch scan extractAdv body css).topLevel =
          (afterWalk mtch scan body css).2 ++ [emb._id] := heq
      rw [htl]
      exact List.getLast?_concat _

/-- Witness for the amended C7 at the unused-`.foo` input: the rule is
relocated, no style is named `foo`, and the embed carries the rule text. -/
theorem claim7_amended_witness :
    (∀ s ∈ (convertDoc noMatch scanUnusedFoo noAdv bodyClassBar cssUnusedFoo).styles,
      s.name = strDropOne ".foo" → hasGeneratedPrefix s.name) ∧
    (".foo" ++ " \x7b " ++ "color: red;" ++ " \x7d") ∈
      (convertDoc noMatch scanUnusedFoo noAdv bodyClassBar cssUnusedFoo).unusedRules ∧
    ∃ emb ∈ (convertDoc noMatch scanUnusedFoo noAdv bodyClassBar cssUnusedFoo).nodes,
      emb.type = "HtmlEmbed" ∧
      (∃ p q, emb.v = p ++ ((".foo" ++ " \x7b " ++ "color: red;" ++ " \x7d") ++ q)) ∧
      (convertDoc noMatch scanUnusedFoo noAdv bodyClassBar
        cssUnusedFoo).topLevel.getLast? = some emb._id :=
  claim7_amended noMatch scanUnusedFoo noAdv bodyClassBar cssUnusedFoo ".foo" "color: red;"
    (by decide) (by decide) (by decide)

/-! ## Claim C10 — amended: unmatched synthesized styles stay unreferenced
unless a literal class token collides with the generated name -/

theorem applyRulesFold_false (mtch : HNode → String → Bool)
    (hm : ∀ e sel2, mtch e sel2 = false) (el : HNode) :
    ∀ (rules : List (String × String)) (st : CState) (classIds : List String),
      applyRulesFold mtch el rules st classIds = (st, classIds) := by
  intro rules
  induction rules with
  | nil => exact fun st c => rfl
  | cons pr rest ih =>
    intro st c
    obtain ⟨sel, sl⟩ := pr
    simp only [applyRulesFold]
    rw [hm el sel, if_neg Bool.false_ne_true]
    exact ih st c

theorem styles_id_inj {styles : List WStyle}
    (hnd : (styles.map (fun s => s._id)).Nodup)
    {a b : WStyle} (ha : a ∈ styles) (hb : b ∈ styles) (hid : a._id = b._id) : a = b := by
  induction styles with
  | nil => exact absurd ha (List.not_mem_nil _)
  | cons s0 rest ih =>
    simp only [List.map_cons, List.nodup_cons] at hnd
    rcases List.mem_cons.mp ha with ha2 | ha2 <;> rcases List.mem_cons.mp hb with hb2 | hb2
    · rw [ha2, hb2]
    · exfalso
      apply hnd.1
      rw [← ha2, hid]
      exact List.mem_map_of_mem (fun s => s._id) hb2
    · exfalso
      apply hnd.1
      rw [← hb2, ← hid]
      exact List.mem_map_of_mem (fun s => s._id) ha2
    · exact ih hnd.2 ha2 hb2

theorem mapOk_transfer {st st2 : CState} (h : MapOk st)
    (hmap : st2.styleIdMap = st.styleIdMap) (hsty : st2.styles = st.styles) :
    MapOk st2 := by
  intro p hp
  rw [hmap] at hp
  rw [hsty]
  exact h p hp

theorem classesOk_push {g : String} {st st2 : CState} (h : ClassesOk g st)
    (hsty : st2.styles = st.styles) (nd : WNode)
    (hnodes : st2.nodes = st.nodes ++ [nd])
    (hnd : ∀ s ∈ st.styles, s.name = g → s._id ∉ nd.classes) :
    ClassesOk g st2 := by
  intro nd2 hnd2 s hs hname
  rw [hnodes] at hnd2
  rw [hsty] at hs
  rcases List.mem_append.mp hnd2 with h2 | h2
  · exact h nd2 h2 s hs hname
  · rw [List.mem_singleton.mp h2]
    exact hnd s hs hname

theorem classesOk_push2 {g : String} {st st2 : CState} (h : ClassesOk g st)
    (hsty : st2.styles = st.styles) (nd1 nd2 : WNode)
    (hnodes : st2.nodes = st.nodes ++ [nd1] ++ [nd2])
    (h1 : ∀ s ∈ st.styles, s.name = g → s._id ∉ nd1.classes)
    (h2 : ∀ s ∈ st.styles, s.name = g → s._id ∉ nd2.classes) :
    ClassesOk g st2 := by
  intro n hn s hs hname
  rw [hnodes] at hn
  rw [hsty] at hs
  rcases List.mem_append.mp hn with hn2 | hn2
  · rcases List.mem_append.mp hn2 with hn3 | hn3
    · exact h n hn3 s hs hname
    · rw [List.mem_singleton.mp hn3]
      exact h1 s hs hname
  · rw [List.mem_singleton.mp hn2]
    exact h2 s hs hname

theorem classIds0_safe (g : String) (st : CState) (attrs : List (String × String))
    (hMapOk : MapOk st) (hnodup : (st.styles.map (fun s => s._id)).Nodup)
    (hg : g ∉ classListOf attrs) :
    ∀ s ∈ st.styles, s.name = g →
      s._id ∉ (classListOf attrs).filterMap (fun c => mget st.styleIdMap c) := by
  intro s hs hname hmem
  obtain ⟨tok, htok, hget⟩ := List.mem_filterMap.mp hmem
  obtain ⟨s0, hs0, hid0, hname0⟩ := hMapOk (tok, s._id) (mget_mem hget)
  have hss : s = s0 := styles_id_inj hnodup hs hs0 hid0.symm
  apply hg
  have hgt : g = tok := by rw [← hname, hss, hname0]
  rw [hgt]
  exact htok

mutual
/-- Under a constantly-false matcher, `processElement` leaves the style list
untouched and never makes a node reference a style whose name occurs in no
descendant class list. -/
theorem processElement_noMatch (mtch : HNode → String → Bool)
    (hm : ∀ e sel2, mtch e sel2 = false) (st : CState) (el : HNode) :
    (processElement mtch st el).1.styles = st.styles ∧
    (∀ g, MapOk st → (st.styles.map (fun s => s._id)).Nodup →
      (∀ e ∈ subElems el, g ∉ classListOfNode e) →
      ClassesOk g st → ClassesOk g (processElement mtch st el).1) := by
  match el with
  | .text s => exact ⟨rfl, fun g _ _ _ h => h⟩
  | .elem tag attrs kids =>
    have hkept := processKeptIds_noMatch mtch hm st kids
    by_cases hig : IGNORED_TAGS.contains (strLower tag) = true
    · simp only [processElement, hig, if_pos]
      exact ⟨hkept.1, fun g hM hN hS hC =>
        hkept.2 g hM hN (fun e he => hS e (List.mem_cons_of_mem _ he)) hC⟩
    · by_cases hscr : strLower tag = "script"
      · simp only [processElement, hig, hscr]
        simp only [if_neg, Bool.false_eq_true, if_false, if_pos, if_true]
        exact ⟨rfl, fun g hM hN hS hC =>
          classesOk_push hC rfl _ rfl (fun s hs hn => List.not_mem_nil _)⟩
      · by_cases hsvg : strLower tag = "svg"
        · simp only [processElement, hig, hscr, hsvg]
          simp only [if_neg, Bool.false_eq_true, if_false, if_pos, if_true]
          exact ⟨rfl, fun g hM hN hS hC =>
            classesOk_push hC rfl _ rfl (fun s hs hn => List.not_mem_nil _)⟩
        · have hAf := applyRulesFold_false mtch hm (.elem tag attrs kids)
            st.complexRules st
            ((classListOf attrs).filterMap (fun c => mget st.styleIdMap c))
          cases htag : TAG_MAP (strLower tag) with
          | none =>
            simp only [processElement, hig, hscr, hsvg, htag, hAf]
            have hck := processChildNodes_noMatch mtch hm
              { st with fresh := st.fresh + 1 } kids
            refine ⟨hck.1, ?_⟩
            intro g hM hN hS hC
            have hCk := hck.2 g hM hN
              (fun e he => hS e (List.mem_cons_of_mem _ he)) hC
            refine classesOk_push hCk rfl _ rfl ?_
            rw [hck.1]
            exact classIds0_safe g st attrs hM hN
              (by exact hS (.elem tag attrs kids) (List.mem_cons_self _ _))
          | some ty =>
            by_cases hty : ty = "Section"
            · by_cases hwrap :
                (!(kids.filter isElem).any (fun k =>
                    tagLower k = "div" && (classListOfNode k).contains ("container")) &&
                  decide (0 < (kids.filter isElem).length)) = true
              · simp only [processElement, hig, hscr, hsvg, htag, hty, hwrap, hAf]
                simp only [if_pos, if_true]
                have hck := processChildNodes_noMatch mtch hm
                  { st with fresh := st.fresh + 1 + 1 } kids
                refine ⟨hck.1, ?_⟩
                intro g hM hN hS hC
                have hCk := hck.2 g hM hN
                  (fun e he => hS e (List.mem_cons_of_mem _ he)) hC
                refine classesOk_push2 hCk rfl _ _ rfl ?_ ?_
                · exact fun s hs hn => List.not_mem_nil _
                · rw [hck.1]
                  exact classIds0_safe g st attrs hM hN
                    (by exact hS (.elem tag attrs kids) (List.mem_cons_self _ _))
              · simp only [processElement, hig, hscr, hsvg, htag, hty, hwrap, hAf]
                simp only [Bool.false_eq_true, if_false]
                have hck := processChildNodes_noMatch mtch hm
                  { st with fresh := st.fresh + 1 } kids
                refine ⟨hck.1, ?_⟩
                intro g hM hN hS hC
                have hCk := hck.2 g hM hN
                  (fun e he => hS e (List.mem_cons_of_mem _ he)) hC
                refine classesOk_push hCk rfl _ rfl ?_
                rw [hck.1]
                exact classIds0_safe g st attrs hM hN
                  (by exact hS (.elem tag attrs kids) (List.mem_cons_self _ _))
            · simp only [processElement, hig, hscr, hsvg, htag, hty, hAf]
              simp only [if_neg, if_false]
              have hck := processChildNodes_noMatch mtch hm
                { st with fresh := st.fresh + 1 } kids
              refine ⟨hck.1, ?_⟩
              intro g hM hN hS hC
              have hCk := hck.2 g hM hN
                (fun e he => hS e (List.mem_cons_of_mem _ he)) hC
              refine classesOk_push hCk rfl _ rfl ?_
              rw [hck.1]
              exact classIds0_safe g st attrs hM hN
                (by exact hS (.elem tag attrs kids) (List.mem_cons_self _ _))

/-- Child-loop version of `processElement_noMatch`. -/
theorem processChildNodes_noMatch (mtch : HNode → String → Bool)
    (hm : ∀ e sel2, mtch e sel2 = false) (st : CState) (kids : List HNode) :
    (processChildNodes mtch st kids).1.styles = st.styles ∧
    (∀ g, MapOk st → (st.styles.map (fun s => s._id)).Nodup →
      (∀ e ∈ subElemsKids kids, g ∉ classListOfNode e) →
      ClassesOk g st → ClassesOk g (processChildNodes mtch st kids).1) := by
  match kids with
  | [] => exact ⟨rfl, fun g _ _ _ h => h⟩
  | .elem t a ks :: rest =>
    have h1 := processElement_noMatch mtch hm st (.elem t a ks)
    have h1ok := processElement_ok mtch st (.elem t a ks)
    have h2 := processChildNodes_noMatch mtch hm
      (processElement mtch st (.elem t a ks)).1 rest
    simp only [processChildNodes]
    refine ⟨h2.1.trans h1.1, ?_⟩
    intro g hM hN hS hC
    refine h2.2 g (mapOk_transfer hM h1ok.1.idmap_eq h1.1) (by rw [h1.1]; exact hN)
      (fun e he => hS e (List.mem_append_right _ he)) ?_
    exact h1.2 g hM hN (fun e he => hS e (List.mem_append_left _ he)) hC
  | .text s :: rest =>
    simp only [processChildNodes]
    by_cases htr : (jsTrim s != "") = true
    · rw [if_pos htr]
      have h2 := processChildNodes_noMatch mtch hm
        { st with
            fresh := st.fresh + 1,
            nodes := st.nodes ++ [{ _id := mkId st.fresh, text := true, v := jsTrim s }] }
        rest
      refine ⟨h2.1.trans rfl, ?_⟩
      intro g hM hN hS hC
      refine h2.2 g (mapOk_transfer hM rfl rfl) hN (fun e he => hS e he) ?_
      exact classesOk_push hC rfl _ rfl (fun s2 hs2 hn2 => List.not_mem_nil _)
    · rw [if_neg htr]
      have h2 := processChildNodes_noMatch mtch hm st rest
      exact ⟨h2.1, fun g hM hN hS hC => h2.2 g hM hN (fun e he => hS e he) hC⟩

/-- Kept-id-loop version of `processElement_noMatch`. -/
theorem processKeptIds_noMatch (mtch : HNode → String → Bool)
    (hm : ∀ e sel2, mtch e sel2 = false) (st : CState) (kids : List HNode) :
    (processKeptIds mtch st kids).1.styles = st.styles ∧
    (∀ g, MapOk st → (st.styles.map (fun s => s._id)).Nodup →
      (∀ e ∈ subElemsKids kids, g ∉ classListOfNode e) →
      ClassesOk g st → ClassesOk g (processKeptIds mtch st kids).1) := by
  match kids with
  | [] => exact ⟨rfl, fun g _ _ _ h => h⟩
  | .text s :: rest =>
    simp only [processKeptIds]
    have h2 := processKeptIds_noMatch mtch hm st rest
    exact ⟨h2.1, fun g hM hN hS hC => h2.2 g hM hN (fun e he => hS e he) hC⟩
  | .elem t a ks :: rest =>
    have h1 := processElement_noMatch mtch hm st (.elem t a ks)
    have h1ok := processElement_ok mtch st (.elem t a ks)
    have h2 := processKeptIds_noMatch mtch hm
      (processElement mtch st (.elem t a ks)).1 rest
    simp only [processKeptIds]
    refine ⟨h2.1.trans h1.1, ?_⟩
    intro g hM hN hS hC
    refine h2.2 g (mapOk_transfer hM h1ok.1.idmap_eq h1.1) (by rw [h1.1]; exact hN)
      (fun e he => hS e (List.mem_append_right _ he)) ?_
    exact h1.2 g hM hN (fun e he => hS e (List.mem_append_left _ he)) hC
end

theorem buildStylesPass_mapOk :
    ∀ (rules : List (String × String)) (st : CState) (u : List String),
      MapOk st → MapOk (buildStylesPass rules st u).1 := by
  intro rules
  induction rules with
  | nil => exact fun st u h => h
  | cons pr rest ih =>
    intro st u h
    obtain ⟨sel, sl⟩ := pr
    simp only [buildStylesPass]
    by_cases hsimple : isSimpleClassSel sel = true
    · rw [if_pos hsimple]
      by_cases hused : st.usedClasses.contains (strDropOne sel) = true
      · rw [if_pos hused]
        refine ih _ u ?_
        intro p hp
        have hp2 : p ∈ mset st.styleIdMap (strDropOne sel) (mkId st.fresh) := hp
        rcases mem_mset hp2 with h2 | h2
        · obtain ⟨s0, hs0, hid, hnm⟩ := h p h2
          exact ⟨s0, by exact List.mem_append_left _ hs0, hid, hnm⟩
        · refine ⟨freshStyle st (strDropOne sel) sl,
            by exact List.mem_append_right _ (List.mem_singleton.mpr rfl), ?_, ?_⟩
          · rw [h2]
            rfl
          · rw [h2]
            rfl
      · rw [if_neg hused]
        exact ih _ _ h
    · rw [if_neg hsimple]
      refine ih _ u ?_
      intro p hp
      have hp2 : p ∈ mset st.styleIdMap (generateClassNameFromSelector sel)
        (mkId st.fresh) := hp
      rcases mem_mset hp2 with h2 | h2
      · obtain ⟨s0, hs0, hid, hnm⟩ := h p h2
        exact ⟨s0, by exact List.mem_append_left _ hs0, hid, hnm⟩
      · refine ⟨freshStyle st (generateClassNameFromSelector sel) sl,
          by exact List.mem_append_right _ (List.mem_singleton.mpr rfl), ?_, ?_⟩
        · rw [h2]
          rfl
        · rw [h2]
          rfl

theorem builtOf_mapOk (scan : RuleScanner) (body : HNode) (css : String) :
    MapOk (builtOf scan body css).1 :=
  buildStylesPass_mapOk _ _ _ (fun _ hp => absurd hp (List.not_mem_nil _))

theorem buildStylesPass_nodes :
    ∀ (rules : List (String × String)) (st : CState) (u : List String),
      (buildStylesPass rules st u).1.nodes = st.nodes := by
  intro rules
  induction rules with
  | nil => exact fun st u => rfl
  | cons pr rest ih =>
    intro st u
    obtain ⟨sel, sl⟩ := pr
    simp only [buildStylesPass]
    by_cases hsimple : isSimpleClassSel sel = true
    · rw [if_pos hsimple]
      by_cases hused : st.usedClasses.contains (strDropOne sel) = true
      · rw [if_pos hused]
        exact (ih _ u).trans rfl
      · rw [if_neg hused]
        exact ih _ _
    · rw [if_neg hsimple]
      exact (ih _ u).trans rfl

theorem walkTopFold_noMatch (mtch : HNode → String → Bool)
    (hm : ∀ e sel2, mtch e sel2 = false) :
    ∀ (elems : List HNode) (st : CState) (acc : List String),
      (walkTopFold mtch elems st acc).1.styles = st.styles ∧
      (∀ g, MapOk st → (st.styles.map (fun s => s._id)).Nodup →
        (∀ e ∈ subElemsKids elems, g ∉ classListOfNode e) →
        ClassesOk g st → ClassesOk g (walkTopFold mtch elems st acc).1) := by
  intro elems
  induction elems with
  | nil => exact fun st acc => ⟨rfl, fun g _ _ _ h => h⟩
  | cons k rest ih =>
    intro st acc
    simp only [walkTopFold]
    have h1 := processElement_noMatch mtch hm st k
    have h1ok := processElement_ok mtch st k
    by_cases hr : ((processElement mtch st k).2 != "") = true
    · rw [if_pos hr]
      have h2 := ih (processElement mtch st k).1 (acc ++ [(processElement mtch st k).2])
      refine ⟨h2.1.trans h1.1, ?_⟩
      intro g hM hN hS hC
      refine h2.2 g (mapOk_transfer hM h1ok.1.idmap_eq h1.1) (by rw [h1.1]; exact hN)
        (fun e he => hS e (List.mem_append_right _ he)) ?_
      exact h1.2 g hM hN (fun e he => hS e (List.mem_append_left _ he)) hC
    · rw [if_neg hr]
      have h2 := ih (processElement mtch st k).1 acc
      refine ⟨h2.1.trans h1.1, ?_⟩
      intro g hM hN hS hC
      refine h2.2 g (mapOk_transfer hM h1ok.1.idmap_eq h1.1) (by rw [h1.1]; exact hN)
        (fun e he => hS e (List.mem_append_right _ he)) ?_
      exact h1.2 g hM hN (fun e he => hS e (List.mem_append_left _ he)) hC

theorem withEmbedOf_classesOk (mtch : HNode → String → Bool) (scan : RuleScanner)
    (extractAdv : String → String) (body : HNode) (css : String) (g : String)
    (hC : ClassesOk g (afterWalk mtch scan body css).1) :
    ClassesOk g (withEmbedOf mtch scan extractAdv body css).1 := by
  simp only [withEmbedOf]
  by_cases hp : decide (0 < (partsOf scan extractAdv body css).length) = true
  · rw [if_pos hp]
    exact classesOk_push hC rfl _ rfl (fun s hs hn => List.not_mem_nil _)
  · rw [if_neg hp]
    exact hC

theorem rootedOf_classesOk (mtch : HNode → String → Bool) (scan : RuleScanner)
    (extractAdv : String → String) (body : HNode) (css : String) (g : String)
    (hC : ClassesOk g (withEmbedOf mtch scan extractAdv body css).1) :
    ClassesOk g (rootedOf mtch scan extractAdv body css).1 := by
  rcases hWl : (withEmbedOf mtch scan extractAdv body css).2 with _ | ⟨x, _ | ⟨y, rest⟩⟩ <;>
    simp only [rootedOf, hWl]
  · exact classesOk_push hC rfl _ rfl (fun s hs hn => List.not_mem_nil _)
  · exact hC
  · exact classesOk_push hC rfl _ rfl (fun s hs hn => List.not_mem_nil _)

theorem convert_styles_noMatch (mtch : HNode → String → Bool)
    (hm : ∀ e sel2, mtch e sel2 = false) (scan : RuleScanner)
    (extractAdv : String → String) (body : HNode) (css : String) :
    (convertDoc mtch scan extractAdv body css).styles =
      (builtOf scan body css).1.styles := by
  show (rootedOf mtch scan extractAdv body css).1.styles = _
  rw [rootedOf_styles, withEmbedOf_styles]
  exact (walkTopFold_noMatch mtch hm (elemChildrenOf (removeStyleTags body))
    (builtOf scan body css).1 []).1

/-- C10 amended: a style synthesized for a complex selector is present in the
output even when the selector never matches; it is referenced by no node
PROVIDED (i) no recorded selector structurally matches any element of the
document (constantly-false matcher) and (ii) no element of the stripped
document carries a literal class token equal to the synthesized name. Both
provisos are necessary. (ii): the class-token resolution path
(`converter.ts:747-753`) consults the shared name → style-id map, so a
literal class equal to the generated name resolves to the synthesized style
(cf. the counterexample). (i): restricting only the one selector to be
unmatched is not enough — the second conjunct shows that with
`div p` / `div > p` rules (both slugified to `scoped-style-div-p`, the shared
map overwritten at `converter.ts:426`) and a document whose paragraph matches
only `div p`, the style synthesized for the never-matched `div > p` is
attached to the paragraph although no literal class token occurs anywhere. -/
theorem claim10_amended :
    (∀ (mtch : HNode → String → Bool) (scan : RuleScanner)
      (extractAdv : String → String) (body : HNode) (css : String) (sel sl : String),
      (∀ e sel2, mtch e sel2 = false) →
      mget (parsedStylesOf scan body css) sel = some sl →
      isSimpleClassSel sel = false →
      (∀ e ∈ subElemsKids (elemChildrenOf (removeStyleTags body)),
        generateClassNameFromSelector sel ∉ classListOfNode e) →
      (∃ s ∈ (convertDoc mtch scan extractAdv body css).styles,
        s.name = generateClassNameFromSelector sel) ∧
      ∀ s ∈ (convertDoc mtch scan extractAdv body css).styles,
        s.name = generateClassNameFromSelector sel →
        ∀ nd ∈ (convertDoc mtch scan extractAdv body css).nodes,
          s._id ∉ nd.classes) ∧
    ((∀ e, mtchDivP e "div > p" = false) ∧
      (∀ e ∈ subElemsKids (elemChildrenOf (removeStyleTags bodyDivSectionP)),
        classListOfNode e = []) ∧
      ∃ s ∈ (convertDoc mtchDivP scanTwoSlugs noAdv bodyDivSectionP cssTwoSlugs).styles,
        s.name = generateClassNameFromSelector "div > p" ∧
        s.styleLess = "color: blue;" ∧
        ∃ nd ∈ (convertDoc mtchDivP scanTwoSlugs noAdv bodyDivSectionP cssTwoSlugs).nodes,
          s._id ∈ nd.classes) := by
  constructor
  · intro mtch scan extractAdv body css sel sl hm hsel hcomplex hg
    have hsty := convert_styles_noMatch mtch hm scan extractAdv body css
    constructor
    · rw [hsty]
      exact buildStylesPass_complex_mem (parsedStylesOf scan body css)
        (initState (usedClassesOf body)) [] sel sl (mget_mem hsel) hcomplex
    · intro s hs hname nd hnd
      have hM := builtOf_mapOk scan body css
      have hN := (builtOf_inv scan body css).style_ids_nodup
      have hC0 : ClassesOk (generateClassNameFromSelector sel)
          (builtOf scan body css).1 := by
        intro nd2 hnd2
        have hnd3 : nd2 ∈ (buildStylesPass (parsedStylesOf scan body css)
            (initState (usedClassesOf body)) []).1.nodes := hnd2
        rw [buildStylesPass_nodes] at hnd3
        exact absurd hnd3 (List.not_mem_nil _)
      have hCw := (walkTopFold_noMatch mtch hm (elemChildrenOf (removeStyleTags body))
        (builtOf scan body css).1 []).2 (generateClassNameFromSelector sel)
        hM hN hg hC0
      have hCe := withEmbedOf_classesOk mtch scan extractAdv body css
        (generateClassNameFromSelector sel) hCw
      have hCr := rootedOf_classesOk mtch scan extractAdv body css
        (generateClassNameFromSelector sel) hCe
      exact hCr nd (mem_reorder hnd) s hs hname
  · have hfalse : (("div > p" : String) == "div p") = false := by decide
    refine ⟨?_, by decide, by decide⟩
    intro e
    unfold mtchDivP
    rw [hfalse]
    rfl

/-- Witness for the universal part of the amended C10 at the tag-rule input
over a document carrying only the unrelated class token `bar`: the
synthesized `custom-styled-p` style exists and no node references it. -/
theorem claim10_amended_witness :
    (∃ s ∈ (convertDoc noMatch scanTagP noAdv bodyClassBar cssTagP).styles,
      s.name = generateClassNameFromSelector "p") ∧
    ∀ s ∈ (convertDoc noMatch scanTagP noAdv bodyClassBar cssTagP).styles,
      s.name = generateClassNameFromSelector "p" →
      ∀ nd ∈ (convertDoc noMatch scanTagP noAdv bodyClassBar cssTagP).nodes,
        s._id ∉ nd.classes :=
  claim10_amended.1 noMatch scanTagP noAdv bodyClassBar cssTagP "p" "color: red;"
    (fun e sel2 => rfl) (by decide) (by decide) (by decide)

/-! ## Claim C3 — amended: universal first-child hoist -/

/-- C3 amended: for EVERY element whose tag is in the ignored-tag set — in
every state, under every matcher — `processElement` creates no node for the
element itself: it returns the state of the kept-children visit paired with
only the FIRST kept child identifier (`childIds[0] || ''`), so only that
identifier is spliced into the parent; and every kept child identifier is
nonempty and names a node created in the walk state, so later kept children
exist as nodes but are not linked through this parent and survive only as
orphans. On the specification's own table example (single-child chains) the
hoisting works as described: the paragraph is the root's child and no
table-section element produces any node; on a two-paragraph example the
parent receives exactly the first paragraph and the second stays unlinked,
appearing in no children list of the output. -/
theorem claim3_amended :
    (∀ (mtch : HNode → String → Bool) (st : CState) (tag : String)
      (attrs : List (String × String)) (kids : List HNode),
      IGNORED_TAGS.contains (strLower tag) = true →
      processElement mtch st (.elem tag attrs kids) =
        ((processKeptIds mtch st kids).1,
         (processKeptIds mtch st kids).2.headD (""))) ∧
    (∀ (mtch : HNode → String → Bool) (st : CState) (kids : List HNode),
      ∀ c ∈ (processKeptIds mtch st kids).2,
        c ≠ "" ∧ c ∈ idsOf (processKeptIds mtch st kids).1.nodes) ∧
    (∃ root ∈ (convertDoc noMatch noScan noAdv bodyTableP "").nodes,
      (convertDoc noMatch noScan noAdv bodyTableP "").nodes.head? = some root ∧
      root.dataTag = "table" ∧
      (∃ pn ∈ (convertDoc noMatch noScan noAdv bodyTableP "").nodes,
        root.children = [pn._id] ∧ pn.tag = "p" ∧
        ∃ tn ∈ (convertDoc noMatch noScan noAdv bodyTableP "").nodes,
          tn.v = "Text" ∧ tn._id ∈ pn.children) ∧
      ∀ nd ∈ (convertDoc noMatch noScan noAdv bodyTableP "").nodes,
        nd.dataTag ∉ ["thead", "tbody", "tfoot", "tr", "td", "th", "colgroup",
                      "col", "caption"] ∧
        nd.tag ∉ ["thead", "tbody", "tfoot", "tr", "td", "th", "colgroup",
                  "col", "caption"]) ∧
    (∃ d ∈ (convertDoc noMatch noScan noAdv bodyTrTwoPs "").nodes,
      d.tag = "div" ∧
      (∃ pa ∈ (convertDoc noMatch noScan noAdv bodyTrTwoPs "").nodes,
        d.children = [pa._id] ∧ pa.tag = "p" ∧
        ∃ ta ∈ (convertDoc noMatch noScan noAdv bodyTrTwoPs "").nodes,
          ta.v = "a" ∧ ta._id ∈ pa.children) ∧
      ∃ pb ∈ (convertDoc noMatch noScan noAdv bodyTrTwoPs "").nodes,
        pb.tag = "p" ∧
        (∃ tb ∈ (convertDoc noMatch noScan noAdv bodyTrTwoPs "").nodes,
          tb.v = "b" ∧ tb._id ∈ pb.children) ∧
        ∀ m ∈ (convertDoc noMatch noScan noAdv bodyTrTwoPs "").nodes,
          pb._id ∉ m.children) := by
  refine ⟨?_, ?_, ?_, ?_⟩
  · intro mtch st tag attrs kids hig
    simp only [processElement, hig, if_pos]
  · intro mtch st kids
    exact (processKeptIds_ok mtch st kids).2.1
  · decide
  · decide

/-- Witness for the universal hoist equation of the amended C3 at the ignored
`tr` tag with two element children in the fresh state. -/
theorem claim3_amended_witness :
    IGNORED_TAGS.contains (strLower "tr") = true ∧
    processElement noMatch (initState [])
        (.elem "tr" [] [.elem "p" [] [], .elem "p" [] []]) =
      ((processKeptIds noMatch (initState []) [.elem "p" [] [], .elem "p" [] []]).1,
       (processKeptIds noMatch (initState [])
         [.elem "p" [] [], .elem "p" [] []]).2.headD ("")) :=
  ⟨by decide, claim3_amended.1 noMatch (initState []) "tr" []
    [.elem "p" [] [], .elem "p" [] []] (by decide)⟩

end CodeToWebflow
